import Mathlib

/-
Shallow embedding of the tailwind-runtime core (src/index.ts).

Strings are modelled as `String` (Lean) with the algorithmic work done on
`String.data : List Char`, so that every operation is executable and the
kernel can evaluate concrete instances.  JavaScript regular-expression
scans are compiled to explicit character-list scanners with the same
left-to-right, advance-on-failure semantics.
-/

namespace TWRT

/-- JavaScript whitespace approximation used by `String.prototype.trim` and
the `\s` character class: space, tab, LF, CR, VT, FF.  (Unicode spaces are
omitted; no claim depends on them.) -/
def isWS (c : Char) : Bool :=
  c = ' ' || c = '\t' || c = '\n' || c = '\r' || c = '\x0b' || c = '\x0c'

/-- `String.prototype.trim` on character lists: drop whitespace from both
ends. -/
def trimL (l : List Char) : List Char :=
  ((l.dropWhile isWS).reverse.dropWhile isWS).reverse

/-- Membership test on string lists, as JavaScript `Array.prototype.includes`
(strict string equality). -/
def memS (l : List String) (s : String) : Bool :=
  match l with
  | [] => false
  | x :: t => x = s || memS t s

/-- Split a character list at every occurrence of a separator character,
as JavaScript `String.prototype.split` with a single-character separator.
The separator is consumed; `""` splits to `[""]`. -/
def splitOnChar (sep : Char) (l : List Char) : List (List Char) :=
  match l with
  | [] => [[]]
  | c :: t =>
    if c = sep then [] :: splitOnChar sep t
    else
      match splitOnChar sep t with
      | h :: r => (c :: h) :: r
      | [] => [[c]]

/-- The lookahead `(?![^\[]*\])` of the variant-splitting regex in
`testVariants`: it FAILS exactly when, in the rest of the string, a `]`
appears before any `[`.  `seesCloseFirst l = true` means the lookahead
fails, i.e. the colon is treated as bracket-protected. -/
def seesCloseFirst (l : List Char) : Bool :=
  match l with
  | [] => false
  | ']' :: _ => true
  | '[' :: _ => false
  | _ :: t => seesCloseFirst t

/-- `className.split(/\:(?![^\[]*\])/g)`: split on every `:` whose suffix
does not show a `]` before any `[`. -/
def splitTop (l : List Char) : List (List Char) :=
  match l with
  | [] => [[]]
  | c :: t =>
    if c = ':' && !seesCloseFirst t then [] :: splitTop t
    else
      match splitTop t with
      | h :: r => (c :: h) :: r
      | [] => [[c]]

/-- The variant chain of a class name: all split segments but the last
(`parts.pop()` discards the base utility segment). -/
def variantChain (c : String) : List String :=
  ((splitTop c.data).dropLast).map (fun p => String.mk p)

/-- The base segment of a class name: the last split segment. -/
def baseOf (c : String) : String :=
  String.mk ((splitTop c.data).getLastD [])

/-- `testVariants` from src/index.ts: a class name matches when every
variant of its chain is in `state`; in strict mode the chain length must
also equal the state length. -/
def testVariants (className : String) (state : List String) (strict : Bool) : Bool :=
  let parts := variantChain className
  if strict && parts.length != state.length then false
  else parts.all (fun v => memS state v)

/-- `toCamelCase` from src/index.ts: every dash followed by a lowercase
ASCII letter is replaced by the uppercased letter (regex dash + `[a-z]`,
global). -/
def toCamelCaseL (l : List Char) : List Char :=
  match l with
  | '-' :: c :: t =>
    if 'a' ≤ c && c ≤ 'z' then c.toUpper :: toCamelCaseL t
    else '-' :: toCamelCaseL (c :: t)
  | c :: t => c :: toCamelCaseL t
  | [] => []

def toCamelCase (s : String) : String := String.mk (toCamelCaseL s.data)

/-- `toKebabCase` from src/index.ts: `name.replace(/[A-Z]/g, dash-lower)`. -/
def toKebabCaseL (l : List Char) : List Char :=
  match l with
  | c :: t =>
    if 'A' ≤ c && c ≤ 'Z' then '-' :: c.toLower :: toKebabCaseL t
    else c :: toKebabCaseL t
  | [] => []

def toKebabCase (s : String) : String := String.mk (toKebabCaseL s.data)

/-- `cleanSelector` from src/index.ts:
`selector.replace(/\\/g, '').slice(1)` — remove every backslash anywhere,
then drop the first character unconditionally. -/
def cleanSelector (s : String) : String :=
  String.mk ((s.data.filter (fun c => c ≠ '\\')).drop 1)

/-- Does a string start with the custom-property marker `--`
(JavaScript `name.startsWith('--')`)? -/
def startsDashDash (s : String) : Bool :=
  match s.data with
  | '-' :: '-' :: _ => true
  | _ => false

/-! ## The style map

A JavaScript `Record<string, string>` used as an insertion-ordered map:
assignment to an existing key updates it in place, assignment to a fresh
key appends, `delete` removes. -/

/-- StyleSet: insertion-ordered association list. -/
abbrev SMap : Type := List (String × String)

/-- First-occurrence lookup (`style[key]`). -/
def lookupS (m : SMap) (k : String) : Option String :=
  match m with
  | [] => none
  | (k', v) :: t => if k' = k then some v else lookupS t k

/-- Assignment `style[key] = v`: update the first occurrence in place, or
append when the key is absent. -/
def setS (m : SMap) (k : String) (v : String) : SMap :=
  match m with
  | [] => [(k, v)]
  | (k', v') :: t => if k' = k then (k, v) :: t else (k', v') :: setS t k v

/-- The keys of a style map in order. -/
def keysOf (m : SMap) : List String := m.map Prod.fst

/-- Write a list of declarations into a style map in order (the accumulator
discipline of `collapseRule`). -/
def setAll (m : SMap) (ds : List (String × String)) : SMap :=
  ds.foldl (fun acc kv => setS acc kv.1 kv.2) m

/-- The value the LAST declaration for a key assigns, if any
(last-write-wins reading of a declaration list). -/
def lastVal (ds : List (String × String)) (k : String) : Option String :=
  lookupS ds.reverse k

/-! ## Variable-reference scanning (the Substitution Engine)

The scan regex of `substitute` is, written out, `var\(` + capture of `--`
followed by one or more characters that are neither `)` nor `,` + optional
`,` + `\)`, applied globally with `matchAll`.  A successful match consumes
the whole reference; a failed position advances by one character. -/

/-- A character allowed inside a captured variable name: anything except
`)` and `,`. -/
def isNameChar (c : Char) : Bool := c ≠ ')' && c ≠ ','

/-- Try to match one `var(--name)` / `var(--name,)` reference at the head
of the list.  Returns the captured name (with its `--`), whether the
optional trailing comma was present, and the remainder after the match. -/
def matchVarAt (l : List Char) : Option (List Char × Bool × List Char) :=
  match l with
  | c1 :: c2 :: c3 :: c4 :: c5 :: c6 :: t =>
    if c1 = 'v' && c2 = 'a' && c3 = 'r' && c4 = '(' && c5 = '-' && c6 = '-' then
      if (t.takeWhile isNameChar).isEmpty then none
      else
        match t.drop (t.takeWhile isNameChar).length with
        | ',' :: ')' :: r => some ('-' :: '-' :: t.takeWhile isNameChar, true, r)
        | ')' :: r => some ('-' :: '-' :: t.takeWhile isNameChar, false, r)
        | _ => none
    else none
  | _ => none

/-- Fueled scanner collecting, left to right, every variable name the
`matchAll` pass finds.  Fuel is an upper bound on remaining positions. -/
def findVarRefsGo (fuel : Nat) (l : List Char) : List (List Char) :=
  match fuel with
  | 0 => []
  | fuel + 1 =>
    match matchVarAt l with
    | some (n, _, r) => n :: findVarRefsGo fuel r
    | none =>
      match l with
      | [] => []
      | _ :: t => findVarRefsGo fuel t

/-- All variable names referenced in a value, in scan order. -/
def findVarRefsL (l : List Char) : List (List Char) :=
  findVarRefsGo l.length l

/-- Prefix test on character lists (literal string search). -/
def isPre (p l : List Char) : Bool :=
  match p, l with
  | [], _ => true
  | _ :: _, [] => false
  | a :: as, b :: bs => a = b && isPre as bs

/-- The per-name replacement regex of `substitute` — `var\(` + the
scanned name + optional `,` + `\)` + captured whitespace run — tried at
the head of the list; returns the remainder after the closing paren on
success.  The source interpolates the raw name into the pattern, so this
literal-string reading is faithful exactly for names whose characters are
all `isRegexSafeChar`: a metacharacter in a name stays live (a dot
matches any character) and an unmatched `[` or `(` makes the source's
pattern construction throw, which this total model does not capture.
Theorems relying on the replacement step therefore either carry the
safe-name hypothesis or make this branch unreachable. -/
def afterName (s : List Char) : Option (List Char) :=
  match s with
  | ',' :: ')' :: r => some r
  | ')' :: r => some r
  | _ => none

def matchNameAt (n : List Char) (l : List Char) : Option (List Char) :=
  if isPre ('v' :: 'a' :: 'r' :: '(' :: n) l then afterName (l.drop (4 + n.length))
  else none

/-- `value.replace(regex, resolved ? resolved + '$1' : '')` with the
non-global per-name regex: replace the FIRST occurrence.  A non-empty
replacement keeps the captured whitespace run; an empty replacement drops
it.  Faithful under the same safe-name proviso as `matchNameAt`, and
additionally only when the resolved text contains no `$` (the source's
`replace` interprets dollar sequences in the replacement string). -/
def replaceFirstVarL (n repl : List Char) (l : List Char) : List Char :=
  match l with
  | [] => []
  | c :: t =>
    match matchNameAt n (c :: t) with
    | some r =>
      let ws := r.takeWhile isWS
      if repl.isEmpty then r.drop ws.length
      else repl ++ ws ++ r.drop ws.length
    | none => c :: replaceFirstVarL n repl t

/-- The reference loop of `substitute` for one value: `matchAll` collects
the names from the ORIGINAL value, then each resolvable name triggers one
first-occurrence replacement on the CURRENT value. -/
def applyRefsL (resolve : String → Option String) (l : List Char) : List Char :=
  (findVarRefsL l).foldl
    (fun acc n =>
      match resolve (String.mk n) with
      | some r => replaceFirstVarL n r.data acc
      | none => acc)
    l

/-- One full Substitution Engine pass over a single value, from the source:
scan the original value for references, fold the replacements, trim. -/
def substituteValue (resolve : String → Option String) (v : String) : String :=
  String.mk (trimL (applyRefsL resolve v.data))

/-- The literal text of a reference as it appeared in the value. -/
def varText (n : List Char) (b : Bool) : List Char :=
  'v' :: 'a' :: 'r' :: '(' :: (n ++ if b then [',', ')'] else [')'])

/-- Fueled left-to-right scanner following the SPEC's description of the
substitution pass: at each reference, a non-empty resolution is emitted in
place of the reference (comma absorbed), an empty resolution deletes the
reference and its trailing whitespace, an unresolved reference is emitted
verbatim; emitted resolution text is never re-scanned. -/
def ltrGo (resolve : String → Option String) (fuel : Nat) (l : List Char) : List Char :=
  match fuel with
  | 0 => []
  | fuel + 1 =>
    match matchVarAt l with
    | some (n, b, r) =>
      match resolve (String.mk n) with
      | some s =>
        if s.data.isEmpty then ltrGo resolve fuel (r.dropWhile isWS)
        else s.data ++ ltrGo resolve fuel r
      | none => varText n b ++ ltrGo resolve fuel r
    | none =>
      match l with
      | [] => []
      | c :: t => c :: ltrGo resolve fuel t

def ltrL (resolve : String → Option String) (l : List Char) : List Char :=
  ltrGo resolve l.length l

/-- Modelled from the spec: one left-to-right substitution pass that never
re-scans a replaced region, followed by the final trim.  This is the
comparator the substitution claims are measured against. -/
def substituteValueSpec (resolve : String → Option String) (v : String) : String :=
  String.mk (trimL (ltrL resolve v.data))

/-! ## The runtime model

`TailwindRuntime` holds the pieces of the stylesheet the algorithms read:
the theme declaration block (a `CSSStyleDeclaration`, i.e. an ordered list
of custom-property declarations), the `@property` rules of the sheet, and
the style rules of the `utilities` layer in stylesheet order
(`allUtilityRules`). -/

/-- A registered custom property (`CSSPropertyRule`): its name, whether it
inherits, and its declared initial value. -/
structure PropertyRule where
  name : String
  inherits : Bool
  initialValue : String

/-- A CSS rule as `collapseRule` sees it.  `styleRule` is a
`CSSStyleRule`: it has both its own declaration text (`style.cssText`) and
nested child rules, so it counts as a grouping rule AND a style rule.
`groupRule` is a pure grouping rule (e.g. `CSSMediaRule`).
`nestedDeclarations` is a `CSSNestedDeclarations` leaf. -/
inductive CRule where
  | styleRule (cssText : String) (cssRules : List CRule)
  | groupRule (cssRules : List CRule)
  | nestedDeclarations (cssText : String)

/-- One utility rule of the `utilities` layer: its selector text and its
body. -/
structure UtilRule where
  selectorText : String
  rule : CRule

/-- The stylesheet state a `TailwindRuntime` instance reads. -/
structure Runtime where
  theme : Option (List (String × String))
  propertyRules : List PropertyRule
  utilities : List UtilRule

/-- First matching property rule in a rule list. -/
def findPropIn (ps : List PropertyRule) (name : String) : Option PropertyRule :=
  match ps with
  | [] => none
  | p :: rest => if p.name = name then some p else findPropIn rest name

/-- `findPropertyRule` from src/index.ts: the first `CSSPropertyRule` of
the sheet whose name matches. -/
def findPropertyRule (rt : Runtime) (name : String) : Option PropertyRule :=
  findPropIn rt.propertyRules name

/-- `CSSStyleDeclaration.getPropertyValue`: the declared value, or `""`
when the property is not declared. -/
def getPropertyValue (decl : List (String × String)) (name : String) : String :=
  (lookupS decl name).getD ""

/-- `getValue` from src/index.ts.  Throws (models as `.error`) when the
name does not start with `--`; otherwise tier 1 is the theme declaration
(non-empty values only), tier 2 the initial value of a matching
non-inheriting registered property; `undefined` (models as `.ok none`)
when both miss.  The function only reads the runtime state. -/
def getValue (rt : Runtime) (name : String) : Except String (Option String) :=
  if !startsDashDash name then
    .error "CSS variable name must start with --"
  else
    match rt.theme with
    | some decl =>
      if getPropertyValue decl name ≠ "" then .ok (some (getPropertyValue decl name))
      else
        match findPropertyRule rt name with
        | some p => if !p.inherits && p.name = name then .ok (some p.initialValue) else .ok none
        | none => .ok none
    | none =>
      match findPropertyRule rt name with
      | some p => if !p.inherits && p.name = name then .ok (some p.initialValue) else .ok none
      | none => .ok none

/-- The non-throwing reading of `getValue`, used inside `substitute` where
every queried name comes from the reference regex and therefore starts
with `--` (so the error branch is unreachable there). -/
def getValueOpt (rt : Runtime) (name : String) : Option String :=
  match getValue rt name with
  | .ok v => v
  | .error _ => none

/-- The two-tier Value Namespace inside `substitute`:
`style[varName] ?? this.getValue(varName)`. -/
def resolveIn (rt : Runtime) (cur : SMap) (name : String) : Option String :=
  match lookupS cur name with
  | some s => some s
  | none => getValueOpt rt name

/-- The first loop of `substitute`: iterate over a snapshot of the
entries, rewriting each value with one `substituteValue` pass against the
CURRENT (already partially rewritten) map. -/
def subPass (rt : Runtime) (cur : SMap) (entries : List (String × String)) : SMap :=
  match entries with
  | [] => cur
  | (k, v) :: rest =>
    subPass rt (setS cur k (substituteValue (resolveIn rt cur) v)) rest

/-- Is this key the name of a registered non-inheriting custom property
(the deletion test of `substitute`'s second loop)? -/
def isInternalProp (rt : Runtime) (k : String) : Bool :=
  match findPropertyRule rt k with
  | some p => !p.inherits
  | none => false

/-- `substitute` from src/index.ts: the per-value rewriting pass over a
snapshot of the entries, then deletion of every key that names a known
non-inheriting custom property. -/
def substitute (rt : Runtime) (style : SMap) : SMap :=
  (subPass rt style style).filter (fun kv => !isInternalProp rt kv.1)

/-! ## Declaration collapsing -/

/-- Parse one `property: value` statement of a declaration block:
`part.split(':').map(trim)` destructured to its first two segments, with
non-custom property names camel-cased.  A segment list without a second
element leaves the JavaScript value `undefined`; the model reports it as a
parse failure (in the source the failure would surface later, as a type
error inside `substitute`). -/
def parseDecl (part : List Char) : Option (String × String) :=
  match splitOnChar ':' part with
  | k :: v :: _ =>
    some
      (if startsDashDash (String.mk (trimL k)) then String.mk (trimL k)
       else toCamelCase (String.mk (trimL k)),
       String.mk (trimL v))
  | _ => none

/-- Parse a `style.cssText` declaration block:
`cssText.split(';').filter(Boolean)` then per-statement parsing. -/
def parseDecls (cssText : String) : Option (List (String × String)) :=
  ((splitOnChar ';' cssText.data).filter (fun p => !p.isEmpty)).mapM parseDecl

/-- Write a parsed declaration block into the accumulator. -/
def applyDecls (cssText : String) (t : SMap) : Option SMap :=
  (parseDecls cssText).map (fun ds => setAll t ds)

mutual
/-- `collapseRule` from src/index.ts: descend into nested rules first,
then write this rule's own declarations, so later writes win. -/
def collapseRule (r : CRule) (t : SMap) : Option SMap :=
  match r with
  | .styleRule txt kids => (collapseRules kids t).bind (fun t2 => applyDecls txt t2)
  | .groupRule kids => collapseRules kids t
  | .nestedDeclarations txt => applyDecls txt t

/-- Fold `collapseRule` over a child list in document order. -/
def collapseRules (rs : List CRule) (t : SMap) : Option SMap :=
  match rs with
  | [] => some t
  | r :: rest => (collapseRule r t).bind (fun t2 => collapseRules rest t2)
end

mutual
/-- The flat list of declarations a rule contributes, in the exact order
`collapseRule` writes them (children first, then the rule's own block). -/
def declProcList (r : CRule) : Option (List (String × String)) :=
  match r with
  | .styleRule txt kids =>
    (declProcLists kids).bind (fun a => (parseDecls txt).map (fun b => a ++ b))
  | .groupRule kids => declProcLists kids
  | .nestedDeclarations txt => parseDecls txt

def declProcLists (rs : List CRule) : Option (List (String × String)) :=
  match rs with
  | [] => some []
  | r :: rest =>
    (declProcList r).bind (fun a => (declProcLists rest).map (fun b => a ++ b))
end

/-! ## The arithmetic simplifier -/

/-- Decimal-digit characters and dots, the `[\d.]` class of `simplify`. -/
def isNumChar (c : Char) : Bool := c.isDigit || c = '.'

/-- ASCII lowercase, the `[a-z]` class of `simplify`. -/
def isAsciiLower (c : Char) : Bool := 'a' ≤ c && c ≤ 'z'

/-- Digit-list to number. -/
def digitsToNat (l : List Char) : Nat :=
  l.foldl (fun a c => a * 10 + (c.toNat - 48)) 0

/-- JavaScript `parseFloat` restricted to the strings the simplifier regex
captures (runs of digits and dots): the longest prefix of the form
`digits . digits` (each part optional, at least one digit overall), `none`
for NaN.  The value is kept as the EXACT decimal `num / 10 ^ exp`; the
source instead yields the binary64 rounding of that decimal (0.1, for
example, is not representable), so this definition is an exact-arithmetic
idealization rather than a model of IEEE-754 behaviour. -/
def parseFloatDec (s : List Char) : Option (Nat × Nat) :=
  match (s.drop (s.takeWhile Char.isDigit).length) with
  | '.' :: r2 =>
    if (s.takeWhile Char.isDigit).isEmpty && (r2.takeWhile Char.isDigit).isEmpty then none
    else
      some
        ((digitsToNat (s.takeWhile Char.isDigit)) * 10 ^ (r2.takeWhile Char.isDigit).length
          + digitsToNat (r2.takeWhile Char.isDigit),
         (r2.takeWhile Char.isDigit).length)
  | _ =>
    if (s.takeWhile Char.isDigit).isEmpty then none
    else some (digitsToNat (s.takeWhile Char.isDigit), 0)

/-- Decimal digit characters of a natural number, fueled. -/
def natCharsGo (fuel : Nat) (n : Nat) : List Char :=
  match fuel with
  | 0 => []
  | fuel + 1 =>
    if n < 10 then [Char.ofNat (48 + n)]
    else natCharsGo fuel (n / 10) ++ [Char.ofNat (48 + n % 10)]

def natChars (n : Nat) : List Char := natCharsGo (n + 1) n

/-- Strip factors of ten from `num / 10 ^ exp` (shortest decimal form). -/
def decShorten (fuel num exp : Nat) : Nat × Nat :=
  match fuel with
  | 0 => (num, exp)
  | fuel + 1 =>
    if 0 < exp && num % 10 = 0 then decShorten fuel (num / 10) (exp - 1)
    else (num, exp)

/-- Insert a decimal point `k` digits from the right, zero-padding to at
least `k + 1` digits. -/
def natPoint (ds : List Char) (k : Nat) : List Char :=
  (if ds.length < k + 1 then List.replicate (k + 1 - ds.length) '0' ++ ds else ds).take
      ((if ds.length < k + 1 then List.replicate (k + 1 - ds.length) '0' ++ ds else ds).length - k)
    ++ ['.']
    ++ (if ds.length < k + 1 then List.replicate (k + 1 - ds.length) '0' ++ ds else ds).drop
      ((if ds.length < k + 1 then List.replicate (k + 1 - ds.length) '0' ++ ds else ds).length - k)

/-- Shortest-exact-decimal printing of `num / 10 ^ exp` (integers print
without a point).  The source formats the binary64 product instead, which
differs wherever rounding is inexact (JavaScript prints 0.1 * 0.2 as
0.020000000000000004) and switches to exponential form at 1e21. -/
def formatDec (num exp : Nat) : List Char :=
  match decShorten exp num exp with
  | (n, 0) => natChars n
  | (n, k + 1) => natPoint (natChars n) (k + 1)

/-- Try to match `calc(<num><unit> * <num>)` at the head of the list; on
success return the replacement text and the remainder after the match. -/
def matchCalcAt (l : List Char) : Option (List Char × List Char) :=
  match l with
  | 'c' :: 'a' :: 'l' :: 'c' :: '(' :: t =>
    matchCalcNum1 t
  | _ => none
where
  matchCalcNum1 (t : List Char) : Option (List Char × List Char) :=
    if (t.takeWhile isNumChar).isEmpty then none
    else matchCalcUnit (t.takeWhile isNumChar) (t.drop (t.takeWhile isNumChar).length)
  matchCalcUnit (d1 t : List Char) : Option (List Char × List Char) :=
    if (t.takeWhile isAsciiLower).isEmpty then none
    else matchCalcStar d1 (t.takeWhile isAsciiLower) (t.drop (t.takeWhile isAsciiLower).length)
  matchCalcStar (d1 u t : List Char) : Option (List Char × List Char) :=
    match t with
    | ' ' :: '*' :: ' ' :: t2 => matchCalcNum2 d1 u t2
    | _ => none
  matchCalcNum2 (d1 u t : List Char) : Option (List Char × List Char) :=
    if (t.takeWhile isNumChar).isEmpty then none
    else
      match t.drop (t.takeWhile isNumChar).length with
      | ')' :: rest =>
        some
          ((match parseFloatDec d1, parseFloatDec (t.takeWhile isNumChar) with
            | some (n1, e1), some (n2, e2) => formatDec (n1 * n2) (e1 + e2)
            | _, _ => ['N', 'a', 'N']) ++ u, rest)
      | _ => none

/-- Fueled global replacement scan of `simplify`. -/
def simplifyGo (fuel : Nat) (l : List Char) : List Char :=
  match fuel with
  | 0 => []
  | fuel + 1 =>
    match matchCalcAt l with
    | some (rep, rest) => rep ++ simplifyGo fuel rest
    | none =>
      match l with
      | [] => []
      | c :: t => c :: simplifyGo fuel t

/-- `simplify` from src/index.ts: replace every
`calc(<number><unit> * <number>)` with the literal product.  The match
structure follows the source regex exactly; the arithmetic inherits the
exact-decimal idealization of `parseFloatDec`/`formatDec` and so agrees
with the source's binary64 computation only where that computation is
exact (which covers the contract examples below). -/
def simplify (s : String) : String := String.mk (simplifyGo s.data.length s.data)

/-- Does the simplifier regex match anywhere in the list? -/
def hasCalcMatch (l : List Char) : Bool :=
  match l with
  | [] => (matchCalcAt []).isSome
  | c :: t => (matchCalcAt (c :: t)).isSome || hasCalcMatch t

/-! ## The public facade -/

/-- The class-name normalization of `toObject`: trim each entry, drop the
empty ones. -/
def normalizeNames (classNames : List String) : List String :=
  (classNames.map (fun c => String.mk (trimL c.data))).filter (fun c => !c.isEmpty)

/-- The active class list of `toObject`: normalized names whose variant
chain passes `testVariants`. -/
def activeOf (classNames state : List String) (strict : Bool) : List String :=
  (normalizeNames classNames).filter (fun c => testVariants c state strict)

/-- The rule-iteration loop of `toObject`: walk the utility rules in
stylesheet order and collapse each rule whose cleaned selector is an
active class name into the accumulator. -/
def collapsePhase (rt : Runtime) (active : List String) : Option SMap :=
  rt.utilities.foldl
    (fun acc u =>
      acc.bind (fun t =>
        if memS active (cleanSelector u.selectorText) then collapseRule u.rule t
        else some t))
    (some ([] : SMap))

/-- The final per-value simplifier loop of `toObject`. -/
def simplifyAll (m : SMap) : SMap := m.map (fun kv => (kv.1, simplify kv.2))

/-- `toObject` from src/index.ts (list-of-names form; the string form
first splits on spaces and then proceeds identically).  `none` models the
failure that malformed declaration text would eventually cause. -/
def toObject (rt : Runtime) (classNames state : List String) (strict : Bool) :
    Option SMap :=
  (collapsePhase rt (activeOf classNames state strict)).map
    (fun style => simplifyAll (substitute rt style))

/-- Join `k: v` pairs as `toCSS` does. -/
def joinSemi (l : List String) : String :=
  match l with
  | [] => ""
  | [x] => x
  | x :: rest => x ++ "; " ++ joinSemi rest

/-- `toCSS` from src/index.ts: kebab-cased keys, `"; "`-joined, with one
trailing semicolon. -/
def toCSS (rt : Runtime) (classNames state : List String) (strict : Bool) :
    Option String :=
  (toObject rt classNames state strict).map
    (fun m => joinSemi (m.map (fun kv => toKebabCase kv.1 ++ ": " ++ kv.2)) ++ ";")

/-- First utility rule in a rule list whose cleaned selector matches. -/
def findUtilIn (us : List UtilRule) (name : String) : Option UtilRule :=
  match us with
  | [] => none
  | u :: rest =>
    if cleanSelector u.selectorText = name then some u else findUtilIn rest name

/-- `findUtilityRule` from src/index.ts: first utility rule whose cleaned
selector equals the class name. -/
def findUtilityRule (rt : Runtime) (name : String) : Option UtilRule :=
  findUtilIn rt.utilities name

/-! ## Spec-side comparators and auxiliary definitions -/

/-- Join segment lists with the `:` delimiter character. -/
def joinColonL (ps : List (List Char)) : List Char :=
  match ps with
  | [] => []
  | [p] => p
  | p :: rest => p ++ ':' :: joinColonL rest

/-- Join class-name segments with the `:` delimiter (the round-trip side
of the decomposition claim). -/
def joinColon (ps : List String) : String :=
  match ps with
  | [] => ""
  | [p] => p
  | p :: rest => p ++ ":" ++ joinColon rest

/-- Tier 2 of the value namespace, following the spec's words: the
declared initial value of a registered custom property with exactly this
name, only if it is marked non-inheriting; no fabricated default. -/
def getValuePropTier (rt : Runtime) (name : String) : Option String :=
  match findPropertyRule rt name with
  | some p => if p.inherits then none else some p.initialValue
  | none => none

/-- Modelled from the spec (§4.4): the raw-value lookup first checks the
theme declaration block for the literal property, then falls back to the
non-inheriting registered property's initial value, and reports "not
found" when both tiers miss. -/
def getValueSpec (rt : Runtime) (name : String) : Option String :=
  match rt.theme with
  | some decl =>
    if getPropertyValue decl name ≠ "" then some (getPropertyValue decl name)
    else getValuePropTier rt name
  | none => getValuePropTier rt name

/-- The declaration lists of a utility-rule list, each from
`declProcList`; `none` when any of them fails to parse. -/
def declsList (us : List UtilRule) : Option (List (List (String × String))) :=
  match us with
  | [] => some []
  | u :: rest => (declProcList u.rule).bind (fun a => (declsList rest).map (fun bs => a :: bs))

/-- The concatenated declaration lists of the matched utility rules, in
iteration order. -/
def matchedDecls (rt : Runtime) (active : List String) : Option (List (String × String)) :=
  (declsList (rt.utilities.filter
    (fun u => memS active (cleanSelector u.selectorText)))).map List.flatten

/-- The names of the `var(...)` references appearing in a value. -/
def refNames (v : String) : List String :=
  (findVarRefsL v.data).map (fun n => String.mk n)

/-- Every utility rule's declaration text parses (every non-empty
semicolon-separated statement contains a colon).  This is the shape the
browser's `cssText` serializer guarantees. -/
def wfRuntime (rt : Runtime) : Prop :=
  ∀ u ∈ rt.utilities, (declProcList u.rule).isSome = true

/-- A small concrete runtime used by the witness theorems: a theme with a
spacing and a color token, one registered internal property, and three
utility rules. -/
def rtEx : Runtime :=
  { theme := some [("--spacing", "0.25rem"), ("--color-red-500", "#ef4444")]
    propertyRules := [{ name := "--tw-scale-x", inherits := false, initialValue := "1" }]
    utilities :=
      [ { selectorText := ".m-4", rule := .styleRule "margin: calc(var(--spacing) * 4)" [] }
      , { selectorText := ".hover\\:text-red-500",
          rule := .styleRule "color: var(--color-red-500)" [] }
      , { selectorText := ".hover\\:m-\\[10px\\]",
          rule := .styleRule "margin: 10px" [] } ] }

/-- A runtime with no theme, no registered properties and no utilities. -/
def rtEmpty : Runtime :=
  { theme := none, propertyRules := [], utilities := [] }

/-- The style map of the substitution counterexample: the value of `p`
holds two references, and resolving the first introduces a reference to
the second's name. -/
def exStyle : SMap :=
  [("p", "var(--a)var(--b)"), ("--a", "var(--b,)"), ("--b", "X")]

/-- Characters with no special meaning when interpolated, un-escaped,
into a regular-expression pattern.  The source builds the per-name
replacement pattern from the raw scanned name, so only names made of such
characters search for the literal name: a dot in a name matches any
character, and an unmatched bracket or parenthesis makes the pattern
construction itself fail. -/
def isRegexSafeChar (c : Char) : Bool :=
  !(c = '\\' || c = '.' || c = '*' || c = '+' || c = '?' || c = '(' || c = ')'
    || c = '[' || c = ']' || c = '\x7b' || c = '\x7d' || c = '^' || c = '$' || c = '|')

/-- Modelled from the spec (§4.1): split on every colon that is NOT
inside a `[...]` bracket pair, tracking openings and closings while
scanning.  This is the comparator for the class-name decomposition claim;
the source instead uses a lookahead, and the two differ when a `]`
appears with no earlier `[`. -/
def splitBrGo (inside : Bool) (l : List Char) : List (List Char) :=
  match l with
  | [] => [[]]
  | c :: t =>
    if c = ':' && !inside then [] :: splitBrGo inside t
    else
      match splitBrGo (if c = '[' then true else if c = ']' then false else inside) t with
      | h :: r => (c :: h) :: r
      | [] => [[c]]

def splitOutsideBrackets (l : List Char) : List (List Char) := splitBrGo false l

/-- A well-formed stylesheet whose only utility declares a custom property
named `--a[b` and references it.  The scanned reference name contains `[`,
so the source's dynamically built replacement pattern is not a valid
regular expression. -/
def rtHazard : Runtime :=
  { theme := none
    propertyRules := []
    utilities :=
      [ { selectorText := ".x", rule := .styleRule "--a[b: v; color: var(--a[b)" [] } ] }

/-! ## Scanner unfolding lemmas -/

theorem matchVarAt_rest_lt {l n b r} (h : matchVarAt l = some (n, b, r)) :
    r.length < l.length := by
  unfold matchVarAt at h
  split at h
  · rename_i c1 c2 c3 c4 c5 c6 t
    split at h
    · split at h
      · exact absurd h (by simp)
      · have hd : (t.drop (t.takeWhile isNameChar).length).length ≤ t.length := by
          simp
        split at h
        · rename_i heq
          simp only [Option.some.injEq, Prod.mk.injEq] at h
          obtain ⟨-, -, hrr⟩ := h
          subst hrr
          have := congrArg List.length heq
          simp only [List.length_cons] at this
          simp only [List.length_cons]
          omega
        · rename_i heq
          simp only [Option.some.injEq, Prod.mk.injEq] at h
          obtain ⟨-, -, hrr⟩ := h
          subst hrr
          have := congrArg List.length heq
          simp only [List.length_cons] at this
          simp only [List.length_cons]
          omega
        · exact absurd h (by simp)
    · exact absurd h (by simp)
  · exact absurd h (by simp)

theorem findVarRefsGo_fuel :
    ∀ (fuel fuel' : Nat) (l : List Char), l.length ≤ fuel → l.length ≤ fuel' →
      findVarRefsGo fuel l = findVarRefsGo fuel' l := by
  intro fuel
  induction fuel with
  | zero =>
    intro fuel' l h1 _
    have : l = [] := by
      cases l with
      | nil => rfl
      | cons a t => simp at h1
    subst this
    cases fuel' with
    | zero => rfl
    | succ f => simp [findVarRefsGo, matchVarAt]
  | succ f ih =>
    intro fuel' l h1 h2
    cases l with
    | nil =>
      cases fuel' with
      | zero => simp [findVarRefsGo, matchVarAt]
      | succ f' => simp [findVarRefsGo, matchVarAt]
    | cons a t =>
      cases fuel' with
      | zero => simp at h2
      | succ f' =>
        cases hm : matchVarAt (a :: t) with
        | some x =>
          obtain ⟨n, b, r⟩ := x
          have hr := matchVarAt_rest_lt hm
          simp only [List.length_cons] at h1 h2 hr
          simp only [findVarRefsGo, hm]
          rw [ih f' r (by omega) (by omega)]
        | none =>
          simp only [List.length_cons] at h1 h2
          simp only [findVarRefsGo, hm]
          rw [ih f' t (by omega) (by omega)]

/-- Canonical one-step unfolding of `findVarRefsL`. -/
theorem findVarRefsL_eq (l : List Char) :
    findVarRefsL l =
      match matchVarAt l with
      | some (n, _, r) => n :: findVarRefsL r
      | none =>
        match l with
        | [] => []
        | _ :: t => findVarRefsL t := by
  cases l with
  | nil => simp [findVarRefsL, findVarRefsGo, matchVarAt]
  | cons a t =>
    show findVarRefsGo (t.length + 1) (a :: t) = _
    cases hm : matchVarAt (a :: t) with
    | some x =>
      obtain ⟨n, b, r⟩ := x
      have hr := matchVarAt_rest_lt hm
      simp only [List.length_cons] at hr
      simp only [findVarRefsGo, hm]
      rw [findVarRefsGo_fuel t.length r.length r (by omega) (by omega)]
      rfl
    | none => simp only [findVarRefsGo, hm]; rfl

theorem length_dropWhile_le {α : Type} (p : α → Bool) (l : List α) :
    (l.dropWhile p).length ≤ l.length := by
  induction l with
  | nil => simp
  | cons a t ih =>
    by_cases h : p a
    · rw [List.dropWhile_cons_of_pos h]
      exact Nat.le_succ_of_le ih
    · rw [List.dropWhile_cons_of_neg h]

theorem ltrGo_fuel (resolve : String → Option String) :
    ∀ (fuel fuel' : Nat) (l : List Char), l.length ≤ fuel → l.length ≤ fuel' →
      ltrGo resolve fuel l = ltrGo resolve fuel' l := by
  intro fuel
  induction fuel with
  | zero =>
    intro fuel' l h1 _
    have : l = [] := by
      cases l with
      | nil => rfl
      | cons a t => simp at h1
    subst this
    cases fuel' with
    | zero => rfl
    | succ f => simp [ltrGo, matchVarAt]
  | succ f ih =>
    intro fuel' l h1 h2
    cases l with
    | nil =>
      cases fuel' with
      | zero => simp [ltrGo, matchVarAt]
      | succ f' => simp [ltrGo, matchVarAt]
    | cons a t =>
      cases fuel' with
      | zero => simp at h2
      | succ f' =>
        cases hm : matchVarAt (a :: t) with
        | some x =>
          obtain ⟨n, b, r⟩ := x
          have hr := matchVarAt_rest_lt hm
          simp only [List.length_cons] at h1 h2 hr
          have hdw : (r.dropWhile isWS).length ≤ r.length :=
            length_dropWhile_le isWS r
          simp only [ltrGo, hm]
          cases hres : resolve (String.mk n) with
          | some s =>
            simp only []
            by_cases he : s.data.isEmpty = true
            · rw [if_pos he, if_pos he, ih f' (r.dropWhile isWS) (by omega) (by omega)]
            · rw [if_neg he, if_neg he, ih f' r (by omega) (by omega)]
          | none =>
            simp only []
            rw [ih f' r (by omega) (by omega)]
        | none =>
          simp only [List.length_cons] at h1 h2
          simp only [ltrGo, hm]
          rw [ih f' t (by omega) (by omega)]

/-- Canonical one-step unfolding of `ltrL`. -/
theorem ltrL_eq (resolve : String → Option String) (l : List Char) :
    ltrL resolve l =
      match matchVarAt l with
      | some (n, b, r) =>
        match resolve (String.mk n) with
        | some s =>
          if s.data.isEmpty then ltrL resolve (r.dropWhile isWS)
          else s.data ++ ltrL resolve r
        | none => varText n b ++ ltrL resolve r
      | none =>
        match l with
        | [] => []
        | c :: t => c :: ltrL resolve t := by
  cases l with
  | nil => simp [ltrL, ltrGo, matchVarAt]
  | cons a t =>
    show ltrGo resolve (t.length + 1) (a :: t) = _
    cases hm : matchVarAt (a :: t) with
    | some x =>
      obtain ⟨n, b, r⟩ := x
      have hr := matchVarAt_rest_lt hm
      simp only [List.length_cons] at hr
      have hdw : (r.dropWhile isWS).length ≤ r.length :=
        length_dropWhile_le isWS r
      simp only [ltrGo, hm]
      cases hres : resolve (String.mk n) with
      | some s =>
        simp only []
        by_cases he : s.data.isEmpty = true
        · rw [if_pos he, if_pos he,
            ltrGo_fuel resolve t.length (r.dropWhile isWS).length (r.dropWhile isWS)
              (by omega) (by omega)]
          rfl
        · rw [if_neg he, if_neg he,
            ltrGo_fuel resolve t.length r.length r (by omega) (by omega)]
          rfl
      | none =>
        simp only []
        rw [ltrGo_fuel resolve t.length r.length r (by omega) (by omega)]
        rfl
    | none => simp only [ltrGo, hm]; rfl

theorem matchCalcAt_rest_lt {l rep rest} (h : matchCalcAt l = some (rep, rest)) :
    rest.length < l.length := by
  unfold matchCalcAt at h
  split at h
  case h_2 => exact absurd h (by simp)
  rename_i t
  unfold matchCalcAt.matchCalcNum1 at h
  split at h
  case isTrue => exact absurd h (by simp)
  unfold matchCalcAt.matchCalcUnit at h
  split at h
  case isTrue => exact absurd h (by simp)
  unfold matchCalcAt.matchCalcStar at h
  split at h
  case h_2 => exact absurd h (by simp)
  rename_i t2 heq2
  unfold matchCalcAt.matchCalcNum2 at h
  split at h
  case isTrue => exact absurd h (by simp)
  split at h
  case h_2 => exact absurd h (by simp)
  rename_i r3 heq3
  simp only [Option.some.injEq, Prod.mk.injEq] at h
  obtain ⟨-, hrr⟩ := h
  subst hrr
  have l2 := congrArg List.length heq2
  have l3 := congrArg List.length heq3
  simp only [List.length_cons, List.length_drop] at l2 l3
  simp only [List.length_cons]
  omega


/-! ## Claim support lemmas -/

theorem memS_iff (l : List String) (s : String) : memS l s = true ↔ s ∈ l := by
  induction l with
  | nil => simp [memS]
  | cons x t ih =>
    simp only [memS, Bool.or_eq_true, decide_eq_true_eq, ih, List.mem_cons]
    constructor
    · rintro (h | h)
      · exact Or.inl h.symm
      · exact Or.inr h
    · rintro (h | h)
      · exact Or.inl h.symm
      · exact Or.inr h

theorem splitTop_ne_nil (l : List Char) : splitTop l ≠ [] := by
  cases l with
  | nil => simp [splitTop]
  | cons c t =>
    unfold splitTop
    by_cases h : (c = ':' && !seesCloseFirst t) = true
    · simp [h]
    · simp only [h, if_false]
      cases hs : splitTop t with
      | nil => simp
      | cons a r => simp

theorem splitTop_cons (c : Char) (t : List Char) :
    splitTop (c :: t) =
      if c = ':' && !seesCloseFirst t then [] :: splitTop t
      else
        match splitTop t with
        | h :: r => (c :: h) :: r
        | [] => [[c]] := rfl

theorem splitTop_join (l : List Char) : joinColonL (splitTop l) = l := by
  induction l with
  | nil => rfl
  | cons c t ih =>
    by_cases h : (c = ':' && !seesCloseFirst t) = true
    · have hc : c = ':' := by
        have := (Bool.and_eq_true _ _).mp h
        exact of_decide_eq_true this.1
      obtain ⟨a, r, hs⟩ := List.exists_cons_of_ne_nil (splitTop_ne_nil t)
      rw [splitTop_cons, if_pos h, hs]
      have : joinColonL ([] :: a :: r) = ':' :: joinColonL (a :: r) := rfl
      rw [this, ← hs, ih, hc]
    · obtain ⟨a, r, hs⟩ := List.exists_cons_of_ne_nil (splitTop_ne_nil t)
      have hstep : splitTop (c :: t) = (c :: a) :: r := by
        rw [splitTop_cons, if_neg h, hs]
      rw [hstep]
      cases r with
      | nil =>
        have h1 : joinColonL [c :: a] = c :: a := rfl
        rw [h1]
        rw [hs] at ih
        have h2 : joinColonL [a] = a := rfl
        rw [h2] at ih
        rw [ih]
      | cons x xs =>
        have h1 : joinColonL ((c :: a) :: x :: xs) = (c :: a) ++ ':' :: joinColonL (x :: xs) := rfl
        rw [h1]
        rw [hs] at ih
        have h2 : joinColonL (a :: x :: xs) = a ++ ':' :: joinColonL (x :: xs) := rfl
        rw [h2] at ih
        simp only [List.cons_append, List.cons.injEq, true_and]
        exact ih

theorem mk_append (a b : List Char) : String.mk a ++ String.mk b = String.mk (a ++ b) := rfl

theorem mk_data (s : String) : String.mk s.data = s := rfl

theorem joinColon_map (ps : List (List Char)) :
    joinColon (ps.map (fun p => String.mk p)) = String.mk (joinColonL ps) := by
  match ps with
  | [] => rfl
  | [p] => rfl
  | p :: q :: rest =>
    have h1 : joinColon ((p :: q :: rest).map (fun p => String.mk p)) =
        String.mk p ++ ":" ++ joinColon ((q :: rest).map (fun p => String.mk p)) := rfl
    have h2 : joinColonL (p :: q :: rest) = p ++ ':' :: joinColonL (q :: rest) := rfl
    rw [h1, h2, joinColon_map (q :: rest)]
    show String.mk p ++ String.mk [':'] ++ String.mk (joinColonL (q :: rest)) = _
    rw [mk_append, mk_append, List.append_assoc]
    rfl

theorem dropLast_getLastD {α : Type} (d : α) :
    ∀ l : List α, l ≠ [] → l.dropLast ++ [l.getLastD d] = l := by
  intro l
  induction l with
  | nil => intro h; exact absurd rfl h
  | cons x t ih =>
    intro _
    cases t with
    | nil => rfl
    | cons y r =>
      have : (x :: y :: r).dropLast = x :: (y :: r).dropLast := rfl
      rw [this]
      have h2 : (x :: y :: r).getLastD d = (y :: r).getLastD d := by
        simp [List.getLastD]
      rw [h2, List.cons_append, ih (by simp)]

/-! ## Claim theorems -/

/-- C1.  Variant matching: `testVariants` returns true iff every entry of
the class name's variant chain is a member of the state list, and, when
`strict` is set, the chain's length additionally equals the state's
length.  (Consequently an empty chain matches any state when strict is
off, and with strict on it matches exactly the empty state.) -/
theorem testVariants_matches_iff (c : String) (state : List String) (strict : Bool) :
    testVariants c state strict = true ↔
      ((∀ v ∈ variantChain c, v ∈ state) ∧
        (strict = true → (variantChain c).length = state.length)) := by
  unfold testVariants
  cases strict with
  | false =>
    simp only [Bool.false_and, Bool.false_eq_true, if_false, List.all_eq_true, memS_iff]
    simp
  | true =>
    by_cases h : (variantChain c).length = state.length
    · simp only [Bool.true_and, h, bne_self_eq_false, Bool.false_eq_true, if_false,
        List.all_eq_true, memS_iff]
      simp [h]
    · have hb : ((variantChain c).length != state.length) = true := by
        simpa using h
      simp only [Bool.true_and, hb, if_true]
      simp [h]

/-- C9, amended.  Class-name decomposition: the program splits at exactly
those colons whose suffix shows no `]` before any `[` (its lookahead
reading of "outside brackets"); the variant chain is all split segments
but the last, the base is the last segment, and re-joining the variant
chain followed by the base with the colon delimiter reconstructs the
original class name. -/
theorem classname_split_join_roundtrip (c : String) :
    variantChain c ++ [baseOf c] = (splitTop c.data).map (fun p => String.mk p) ∧
    joinColon (variantChain c ++ [baseOf c]) = c := by
  have h1 : variantChain c ++ [baseOf c]
      = ((splitTop c.data).dropLast ++ [(splitTop c.data).getLastD []]).map
          (fun p => String.mk p) := by
    unfold variantChain baseOf
    simp
  have h2 : (splitTop c.data).dropLast ++ [(splitTop c.data).getLastD []]
      = splitTop c.data :=
    dropLast_getLastD [] (splitTop c.data) (splitTop_ne_nil c.data)
  constructor
  · rw [h1, h2]
  · rw [h1, h2, joinColon_map, splitTop_join, mk_data]

/-- C9, counterexample.  The program's split is not "split on every colon
not inside a `[...]` bracket pair": in `a:b]c` the colon lies inside no
bracket pair (there is no `[` at all), so that reading yields the
segments `a` and `b]c` — variants `[a]`, base `b]c` — yet the source's
lookahead sees the `]` ahead of any `[` and refuses to split, giving no
variants and base `a:b]c`. -/
theorem splitTop_not_bracket_split_counterexample :
    splitOutsideBrackets "a:b]c".data = ["a".data, "b]c".data] ∧
    splitTop "a:b]c".data = ["a:b]c".data] ∧
    variantChain "a:b]c" = [] ∧ baseOf "a:b]c" = "a:b]c" ∧
    splitTop "a:b]c".data ≠ splitOutsideBrackets "a:b]c".data := by
  exact ⟨by decide, by decide, by decide, by decide, by decide⟩


theorem simplifyGo_of_no_match :
    ∀ (fuel : Nat) (l : List Char), hasCalcMatch l = false → l.length ≤ fuel →
      simplifyGo fuel l = l := by
  intro fuel
  induction fuel with
  | zero =>
    intro l _ hl
    cases l with
    | nil => rfl
    | cons c t => simp at hl
  | succ f ih =>
    intro l h hl
    cases l with
    | nil => rfl
    | cons c t =>
      have hb := h
      simp only [hasCalcMatch, Bool.or_eq_false_iff] at hb
      have hm : matchCalcAt (c :: t) = none :=
        Option.not_isSome_iff_eq_none.mp (by simp [hb.1])
      simp only [List.length_cons] at hl
      simp only [simplifyGo, hm]
      rw [ih t hb.2 (by omega)]

/-- The statable fragment of the simplifier's contract: the three
documented examples evaluate as claimed (here binary64 multiplication is
exact, so the exact-decimal embedding agrees with the source), and any
input without a `calc(<num><unit> * <num>)` match is returned unchanged.
The universal product clause of the source fixes binary64 rounding and
JavaScript number formatting, which this embedding does not model. -/
theorem simplify_calc_spec :
    simplify "calc(0.25rem * 4)" = "1rem" ∧
    simplify "calc(2px * 3)" = "6px" ∧
    simplify "10px" = "10px" ∧
    ∀ s : String, hasCalcMatch s.data = false → simplify s = s := by
  refine ⟨by decide, by decide, by decide, ?_⟩
  intro s h
  unfold simplify
  rw [simplifyGo_of_no_match s.data.length s.data h (le_refl _), mk_data]

/-- The simplifier fragment at a concrete non-matching input. -/
theorem simplify_calc_spec_witness :
    hasCalcMatch "1px solid red".data = false ∧
    simplify "1px solid red" = "1px solid red" :=
  ⟨by decide, simplify_calc_spec.2.2.2 "1px solid red" (by decide)⟩

/-- C10.  `cleanSelector` removes every backslash (anywhere in the
selector, not only a leading one) and then drops the first character
unconditionally; consequently `findUtilityRule` matches a utility rule
whose selector text is a dot followed by the backslash-escaped class
name. -/
theorem cleanSelector_unescapes :
    (∀ (s n : String), s.data.filter (fun c => c ≠ '\\') = '.' :: n.data →
      cleanSelector s = n) ∧
    cleanSelector ".hover\\:m-\\[10px\\]" = "hover:m-[10px]" ∧
    cleanSelector "ab" = "b" ∧
    findUtilityRule rtEx "hover:m-[10px]" =
      some { selectorText := ".hover\\:m-\\[10px\\]",
             rule := .styleRule "margin: 10px" [] } := by
  refine ⟨?_, by decide, by decide, ?_⟩
  · intro s n h
    unfold cleanSelector
    rw [h]
    exact mk_data n
  · rfl

/-- Witness for C10 at a concrete escaped selector. -/
theorem cleanSelector_unescapes_witness :
    ".x\\:y".data.filter (fun c => c ≠ '\\') = '.' :: "x:y".data ∧
    cleanSelector ".x\\:y" = "x:y" :=
  ⟨by decide, cleanSelector_unescapes.1 ".x\\:y" "x:y" (by decide)⟩

theorem findPropIn_name (ps : List PropertyRule) (name : String) (p : PropertyRule)
    (h : findPropIn ps name = some p) : p.name = name := by
  induction ps with
  | nil => simp [findPropIn] at h
  | cons q rest ih =>
    unfold findPropIn at h
    by_cases hq : q.name = name
    · rw [if_pos hq] at h
      cases h
      exact hq
    · rw [if_neg hq] at h
      exact ih h

theorem propFallback_eq (rt : Runtime) (name : String) :
    (match findPropertyRule rt name with
     | some p =>
       if !p.inherits && p.name = name then Except.ok (some p.initialValue)
       else Except.ok none
     | none => (Except.ok none : Except String (Option String)))
    = Except.ok (getValuePropTier rt name) := by
  cases hp : findPropertyRule rt name with
  | none =>
    unfold getValuePropTier
    rw [hp]
  | some p =>
    have hname : p.name = name := findPropIn_name rt.propertyRules name p hp
    unfold getValuePropTier
    rw [hp]
    simp only []
    cases hinh : p.inherits with
    | true => simp
    | false => simp [hname]

/-- C7.  `getValue` raises exactly when the name does not start with
`--` (it reads but never writes the runtime state, so a raise leaves
everything unmutated); otherwise it returns the value the two-tier
specification lookup describes: the theme declaration's non-empty value
first, else the initial value of the exactly-named non-inheriting
registered property, else no value. -/
theorem getValue_error_iff (rt : Runtime) (name : String) :
    (startsDashDash name = false →
      getValue rt name = .error "CSS variable name must start with --") ∧
    (startsDashDash name = true → getValue rt name = .ok (getValueSpec rt name)) := by
  constructor
  · intro h
    unfold getValue
    rw [h]
    rfl
  · intro h
    unfold getValue getValueSpec
    rw [h]
    simp only [Bool.not_true, Bool.false_eq_true, if_false]
    cases htheme : rt.theme with
    | some decl =>
      simp only []
      by_cases hv : getPropertyValue decl name ≠ ""
      · rw [if_pos hv, if_pos hv]
      · rw [if_neg hv, if_neg hv]
        exact propFallback_eq rt name
    | none =>
      simp only []
      exact propFallback_eq rt name

/-- Witness for C7: both branches at concrete names against the example
runtime. -/
theorem getValue_error_iff_witness :
    getValue rtEx "spacing" = .error "CSS variable name must start with --" ∧
    getValue rtEx "--spacing" = .ok (getValueSpec rtEx "--spacing") ∧
    getValueSpec rtEx "--spacing" = some "0.25rem" :=
  ⟨(getValue_error_iff rtEx "spacing").1 (by decide),
   (getValue_error_iff rtEx "--spacing").2 (by decide),
   by decide⟩


theorem keysOf_setS_mem (m : SMap) (k : String) (v : String) (h : k ∈ keysOf m) :
    keysOf (setS m k v) = keysOf m := by
  induction m with
  | nil => simp [keysOf] at h
  | cons kv t ih =>
    obtain ⟨k', v'⟩ := kv
    unfold setS
    by_cases hk : k' = k
    · rw [if_pos hk]
      simp [keysOf, hk]
    · rw [if_neg hk]
      simp only [keysOf, List.map_cons] at h ⊢
      have hmem : k ∈ keysOf t := by
        rcases List.mem_cons.mp h with h1 | h1
        · exact absurd h1.symm hk
        · exact h1
      rw [List.cons.injEq]
      exact ⟨rfl, ih hmem⟩

theorem keysOf_subPass (rt : Runtime) :
    ∀ (entries : List (String × String)) (cur : SMap),
      (∀ kv ∈ entries, kv.1 ∈ keysOf cur) →
      keysOf (subPass rt cur entries) = keysOf cur := by
  intro entries
  induction entries with
  | nil => intro cur _; rfl
  | cons kv rest ih =>
    intro cur hmem
    obtain ⟨k, v⟩ := kv
    unfold subPass
    have hk : k ∈ keysOf cur := hmem (k, v) (List.mem_cons_self _ _)
    have hset := keysOf_setS_mem cur k (substituteValue (resolveIn rt cur) v) hk
    rw [ih _ (fun kv hkv => by rw [hset]; exact hmem kv (List.mem_cons_of_mem _ hkv)), hset]

theorem lookupS_filter_not (m : SMap) (p : String → Bool) (k : String) (h : p k = false) :
    lookupS (m.filter (fun kv => p kv.1)) k = none := by
  induction m with
  | nil => rfl
  | cons kv t ih =>
    obtain ⟨k', v'⟩ := kv
    by_cases hp : p k' = true
    · rw [List.filter_cons_of_pos (by simpa using hp)]
      unfold lookupS
      have hk : ¬(k' = k) := by
        intro hkk
        rw [hkk, h] at hp
        exact Bool.false_ne_true hp
      rw [if_neg hk]
      exact ih
    · rw [List.filter_cons_of_neg (by simpa using hp)]
      exact ih

theorem keysOf_filter_mem (m : SMap) (p : String → Bool) (k : String) :
    k ∈ keysOf (m.filter (fun kv => p kv.1)) ↔ k ∈ keysOf m ∧ p k = true := by
  induction m with
  | nil => simp [keysOf]
  | cons kv t ih =>
    obtain ⟨k', v'⟩ := kv
    by_cases hp : p k' = true
    · rw [List.filter_cons_of_pos (by simpa using hp)]
      simp only [keysOf, List.map_cons, List.mem_cons]
      constructor
      · rintro (h1 | h1)
        · exact ⟨Or.inl h1, h1 ▸ hp⟩
        · have := ih.mp h1
          exact ⟨Or.inr this.1, this.2⟩
      · rintro ⟨h1 | h1, h2⟩
        · exact Or.inl h1
        · exact Or.inr (ih.mpr ⟨h1, h2⟩)
    · rw [List.filter_cons_of_neg (by simpa using hp)]
      simp only [keysOf, List.map_cons, List.mem_cons]
      constructor
      · intro h1
        have := ih.mp h1
        exact ⟨Or.inr this.1, this.2⟩
      · rintro ⟨h1 | h1, h2⟩
        · rw [h1] at h2
          rw [h2] at hp
          exact absurd rfl hp
        · exact ih.mpr ⟨h1, h2⟩

/-- C3.  After the substitution phase, a key naming a registered
non-inheriting custom property is absent from the result (deleted, not
blanked), while a key for which the sheet registers no property (e.g. a
theme variable resolvable only through the theme declaration) is present
in the result exactly when it was present before. -/
theorem substitute_deletes_internal (rt : Runtime) (style : SMap) (k : String) :
    (∀ p, findPropertyRule rt k = some p → p.inherits = false →
      lookupS (substitute rt style) k = none) ∧
    (findPropertyRule rt k = none →
      (k ∈ keysOf (substitute rt style) ↔ k ∈ keysOf style)) := by
  constructor
  · intro p hp hinh
    unfold substitute
    have hint : isInternalProp rt k = true := by
      unfold isInternalProp
      rw [hp]
      simp [hinh]
    exact lookupS_filter_not _ (fun k => !isInternalProp rt k) k (by simp [hint])
  · intro hp
    unfold substitute
    have hint : isInternalProp rt k = false := by
      unfold isInternalProp
      rw [hp]
    rw [keysOf_filter_mem _ (fun k => !isInternalProp rt k) k]
    have hkeys : keysOf (subPass rt style style) = keysOf style :=
      keysOf_subPass rt style style (fun kv hkv => List.mem_map_of_mem Prod.fst hkv)
    rw [hkeys, hint]
    simp

/-- Witness for C3: the internal `--tw-scale-x` key is deleted while the
theme key `--color-red-500` is retained. -/
theorem substitute_deletes_internal_witness :
    lookupS (substitute rtEx [("--tw-scale-x", "2"), ("--color-red-500", "#f00")])
      "--tw-scale-x" = none ∧
    ("--color-red-500" ∈
        keysOf (substitute rtEx [("--tw-scale-x", "2"), ("--color-red-500", "#f00")]) ↔
      "--color-red-500" ∈ keysOf [("--tw-scale-x", "2"), ("--color-red-500", "#f00")]) :=
  ⟨(substitute_deletes_internal rtEx
      [("--tw-scale-x", "2"), ("--color-red-500", "#f00")] "--tw-scale-x").1
      { name := "--tw-scale-x", inherits := false, initialValue := "1" } rfl rfl,
   (substitute_deletes_internal rtEx
      [("--tw-scale-x", "2"), ("--color-red-500", "#f00")] "--color-red-500").2 rfl⟩


theorem lookupS_cons (k' v' : String) (t : SMap) (p : String) :
    lookupS ((k', v') :: t) p = if k' = p then some v' else lookupS t p := rfl

theorem lookupS_setS (m : SMap) (k v p : String) :
    lookupS (setS m k v) p = if p = k then some v else lookupS m p := by
  induction m with
  | nil =>
    show lookupS [(k, v)] p = _
    rw [lookupS_cons]
    by_cases h : p = k
    · rw [if_pos h, if_pos h.symm]
    · rw [if_neg h, if_neg (fun hk => h hk.symm)]
  | cons kv t ih =>
    obtain ⟨k', v'⟩ := kv
    unfold setS
    by_cases hk : k' = k
    · rw [if_pos hk, lookupS_cons, lookupS_cons]
      by_cases hp : p = k
      · rw [if_pos hp, if_pos hp.symm]
      · rw [if_neg hp, if_neg (fun h => hp h.symm), if_neg (fun h => hp (hk ▸ h).symm)]
    · rw [if_neg hk, lookupS_cons, lookupS_cons]
      by_cases hp : k' = p
      · have : ¬(p = k) := fun h => hk (h ▸ hp)
        rw [if_pos hp, if_pos hp, if_neg this]
      · rw [if_neg hp, if_neg hp, ih]

theorem lookupS_append (a b : SMap) (p : String) :
    lookupS (a ++ b) p =
      match lookupS a p with
      | some v => some v
      | none => lookupS b p := by
  induction a with
  | nil => rfl
  | cons kv t ih =>
    obtain ⟨k', v'⟩ := kv
    rw [List.cons_append, lookupS_cons, lookupS_cons]
    by_cases hp : k' = p
    · rw [if_pos hp, if_pos hp]
    · rw [if_neg hp, if_neg hp, ih]

theorem lookupS_setAll (ds : List (String × String)) :
    ∀ (m : SMap) (p : String),
      lookupS (setAll m ds) p =
        match lastVal ds p with
        | some v => some v
        | none => lookupS m p := by
  induction ds with
  | nil => intro m p; rfl
  | cons kv rest ih =>
    intro m p
    obtain ⟨k, v⟩ := kv
    have h1 : setAll m ((k, v) :: rest) = setAll (setS m k v) rest := rfl
    rw [h1, ih]
    have h2 : lastVal ((k, v) :: rest) p =
        match lastVal rest p with
        | some w => some w
        | none => if p = k then some v else none := by
      unfold lastVal
      rw [List.reverse_cons, lookupS_append]
      cases lookupS rest.reverse p with
      | some w => rfl
      | none =>
        simp only []
        rw [lookupS_cons]
        by_cases hp : k = p
        · rw [if_pos hp, if_pos hp.symm]
        · rw [if_neg hp, if_neg (fun h => hp h.symm)]
          rfl
    rw [h2]
    cases lastVal rest p with
    | some w => rfl
    | none =>
      simp only [lookupS_setS]
      by_cases hp : p = k
      · rw [if_pos hp, if_pos hp]
      · rw [if_neg hp, if_neg hp]

theorem setAll_append (t : SMap) (a b : List (String × String)) :
    setAll t (a ++ b) = setAll (setAll t a) b := by
  unfold setAll
  rw [List.foldl_append]

mutual
theorem collapseRule_eq : ∀ (r : CRule) (t : SMap),
    collapseRule r t = (declProcList r).map (fun ds => setAll t ds)
  | .styleRule txt kids, t => by
    show (collapseRules kids t).bind (fun t2 => applyDecls txt t2) =
      ((declProcLists kids).bind
        (fun a => (parseDecls txt).map (fun b => a ++ b))).map (fun ds => setAll t ds)
    rw [collapseRules_eq kids t]
    cases declProcLists kids with
    | none => rfl
    | some a =>
      simp only [Option.map_some', Option.some_bind]
      unfold applyDecls
      cases parseDecls txt with
      | none => rfl
      | some b =>
        simp only [Option.map_some']
        rw [setAll_append]
  | .groupRule kids, t => collapseRules_eq kids t
  | .nestedDeclarations txt, t => rfl

theorem collapseRules_eq : ∀ (rs : List CRule) (t : SMap),
    collapseRules rs t = (declProcLists rs).map (fun ds => setAll t ds)
  | [], t => rfl
  | r :: rest, t => by
    show (collapseRule r t).bind (fun t2 => collapseRules rest t2) =
      ((declProcList r).bind
        (fun a => (declProcLists rest).map (fun b => a ++ b))).map (fun ds => setAll t ds)
    rw [collapseRule_eq r t]
    cases declProcList r with
    | none => rfl
    | some a =>
      simp only [Option.map_some', Option.some_bind]
      rw [collapseRules_eq rest (setAll t a)]
      cases declProcLists rest with
      | none => rfl
      | some b =>
        simp only [Option.map_some']
        rw [setAll_append]
end

theorem collapseFold_none (active : List String) :
    ∀ us : List UtilRule,
      us.foldl
        (fun acc u =>
          acc.bind (fun t =>
            if memS active (cleanSelector u.selectorText) then collapseRule u.rule t
            else some t))
        none = none := by
  intro us
  induction us with
  | nil => rfl
  | cons u rest ih => simpa using ih

theorem collapseFold_eq (active : List String) :
    ∀ (us : List UtilRule) (t : SMap),
      us.foldl
        (fun acc u =>
          acc.bind (fun t =>
            if memS active (cleanSelector u.selectorText) then collapseRule u.rule t
            else some t))
        (some t)
      = ((declsList (us.filter (fun u => memS active (cleanSelector u.selectorText)))).map
          List.flatten).map (fun ds => setAll t ds) := by
  intro us
  induction us with
  | nil => intro t; rfl
  | cons u rest ih =>
    intro t
    rw [List.foldl_cons]
    by_cases hmem : memS active (cleanSelector u.selectorText) = true
    · simp only [Option.some_bind, if_pos hmem]
      have hf : (u :: rest).filter (fun u => memS active (cleanSelector u.selectorText))
          = u :: rest.filter (fun u => memS active (cleanSelector u.selectorText)) := by
        rw [List.filter_cons, if_pos hmem]
      rw [hf]
      have hd2 : declsList (u :: rest.filter (fun u => memS active (cleanSelector u.selectorText)))
          = (declProcList u.rule).bind
              (fun a => (declsList (rest.filter
                (fun u => memS active (cleanSelector u.selectorText)))).map
                (fun bs => a :: bs)) := rfl
      rw [hd2, collapseRule_eq u.rule t]
      cases hd : declProcList u.rule with
      | none =>
        simp only [Option.map_none']
        rw [collapseFold_none active rest]
        rfl
      | some ds =>
        simp only [Option.map_some', Option.some_bind]
        rw [ih (setAll t ds)]
        cases hrest : declsList (rest.filter
            (fun u => memS active (cleanSelector u.selectorText))) with
        | none => rfl
        | some bs =>
          simp only [Option.map_some', List.flatten_cons]
          show some (setAll (setAll t ds) bs.flatten) = some (setAll t (ds ++ bs.flatten))
          rw [setAll_append]
    · simp only [Option.some_bind, if_neg hmem]
      have hf : (u :: rest).filter (fun u => memS active (cleanSelector u.selectorText))
          = rest.filter (fun u => memS active (cleanSelector u.selectorText)) := by
        rw [List.filter_cons, if_neg hmem]
      rw [hf]
      exact ih t

theorem collapsePhase_eq (rt : Runtime) (active : List String) :
    collapsePhase rt active = (matchedDecls rt active).map (fun ds => setAll [] ds) := by
  unfold collapsePhase matchedDecls
  exact collapseFold_eq active rt.utilities []

/-- C5.  Later-wins merge order: the rule-iteration fold of `toObject`
(`collapsePhase` over `activeOf`) produces exactly the style map obtained
by writing the matched rules' declaration lists — concatenated in
stylesheet iteration order, each flattened in `collapseRule`'s processing
order — into an empty map, so the value found for any property is the
LAST declaration of that property across the matched rules: the later
rule by iteration order determines the final value. -/
theorem collapse_later_wins (rt : Runtime) (cns state : List String) (strict : Bool)
    (ds : List (String × String)) (p : String)
    (h : matchedDecls rt (activeOf cns state strict) = some ds) :
    ∃ m, collapsePhase rt (activeOf cns state strict) = some m ∧
      lookupS m p = lastVal ds p := by
  refine ⟨setAll [] ds, ?_, ?_⟩
  · rw [collapsePhase_eq, h]
    rfl
  · rw [lookupS_setAll]
    cases hl : lastVal ds p with
    | some w => rfl
    | none => rfl

/-- Witness for C5: `m-4` and `hover:m-[10px]` both set `margin`; the
later rule's value wins. -/
theorem collapse_later_wins_witness :
    matchedDecls rtEx (activeOf ["m-4", "hover:m-[10px]"] ["hover"] false) =
      some [("margin", "calc(var(--spacing) * 4)"), ("margin", "10px")] ∧
    (∃ m, collapsePhase rtEx (activeOf ["m-4", "hover:m-[10px]"] ["hover"] false) = some m ∧
      lookupS m "margin" =
        lastVal [("margin", "calc(var(--spacing) * 4)"), ("margin", "10px")] "margin") ∧
    lastVal [("margin", "calc(var(--spacing) * 4)"), ("margin", "10px")] "margin" =
      some "10px" :=
  ⟨by decide,
   collapse_later_wins rtEx ["m-4", "hover:m-[10px]"] ["hover"] false
     [("margin", "calc(var(--spacing) * 4)"), ("margin", "10px")] "margin" (by decide),
   by decide⟩


theorem dropWhile_head_false {α : Type} (p : α → Bool) (l : List α) {c : α} {t : List α}
    (h : l.dropWhile p = c :: t) : p c = false := by
  induction l with
  | nil => simp at h
  | cons a l2 ih =>
    by_cases ha : p a = true
    · rw [List.dropWhile_cons_of_pos ha] at h
      exact ih h
    · rw [List.dropWhile_cons_of_neg ha] at h
      cases h
      simpa using ha

theorem dropWhile_idem {α : Type} (p : α → Bool) (l : List α) :
    (l.dropWhile p).dropWhile p = l.dropWhile p := by
  cases h : l.dropWhile p with
  | nil => rfl
  | cons c t =>
    have hc : p c = false := dropWhile_head_false p l h
    exact List.dropWhile_cons_of_neg (by simp [hc])

theorem rtrim_prefix (m : List Char) :
    ((m.reverse.dropWhile isWS).reverse) <+: m := by
  have h1 : (m.reverse.dropWhile isWS) <:+ m.reverse := List.dropWhile_suffix isWS
  have h2 : ((m.reverse.dropWhile isWS).reverse).reverse <:+ m.reverse := by
    rw [List.reverse_reverse]
    exact h1
  exact List.reverse_suffix.mp h2

theorem ltrim_of_trimL (l : List Char) :
    (trimL l).dropWhile isWS = trimL l := by
  cases h : trimL l with
  | nil => rfl
  | cons c t =>
    have hpre : trimL l <+: l.dropWhile isWS := rtrim_prefix (l.dropWhile isWS)
    rw [h] at hpre
    obtain ⟨rest, hrest⟩ := hpre
    have hc : isWS c = false :=
      dropWhile_head_false isWS l (by rw [← hrest]; rfl)
    exact List.dropWhile_cons_of_neg (by simp [hc])

theorem trimL_idem (l : List Char) : trimL (trimL l) = trimL l := by
  show (((trimL l).dropWhile isWS).reverse.dropWhile isWS).reverse = trimL l
  rw [ltrim_of_trimL]
  show ((((l.dropWhile isWS).reverse.dropWhile isWS).reverse).reverse.dropWhile
    isWS).reverse = trimL l
  rw [List.reverse_reverse, dropWhile_idem]
  rfl

theorem substituteValue_trimFix (resolve : String → Option String) (v : String) :
    trimL (substituteValue resolve v).data = (substituteValue resolve v).data := by
  show trimL (trimL (applyRefsL resolve v.data)) = trimL (applyRefsL resolve v.data)
  exact trimL_idem _

theorem applyRefsL_of_unresolved (resolve : String → Option String) (l : List Char)
    (h : ∀ n ∈ findVarRefsL l, resolve (String.mk n) = none) :
    applyRefsL resolve l = l := by
  unfold applyRefsL
  have aux : ∀ (refs : List (List Char)) (acc : List Char),
      (∀ n ∈ refs, resolve (String.mk n) = none) →
      refs.foldl
        (fun acc n =>
          match resolve (String.mk n) with
          | some r => replaceFirstVarL n r.data acc
          | none => acc)
        acc = acc := by
    intro refs
    induction refs with
    | nil => intro acc _; rfl
    | cons n rest ih =>
      intro acc hres
      rw [List.foldl_cons]
      have hn : resolve (String.mk n) = none := hres n (List.mem_cons_self _ _)
      rw [hn]
      exact ih acc (fun x hx => hres x (List.mem_cons_of_mem _ hx))
  exact aux (findVarRefsL l) l h

theorem mem_setS (m : SMap) (k v : String) (hnd : (keysOf m).Nodup) :
    ∀ kv ∈ setS m k v, kv = (k, v) ∨ (kv ∈ m ∧ kv.1 ≠ k) := by
  induction m with
  | nil =>
    intro kv hkv
    rcases List.mem_singleton.mp hkv with h
    exact Or.inl h
  | cons e t ih =>
    obtain ⟨k', v'⟩ := e
    intro kv hkv
    have hnd2 : (keysOf t).Nodup := by
      simp only [keysOf, List.map_cons, List.nodup_cons] at hnd
      exact hnd.2
    have hk'nmem : k' ∉ keysOf t := by
      simp only [keysOf, List.map_cons, List.nodup_cons] at hnd
      exact hnd.1
    unfold setS at hkv
    by_cases hk : k' = k
    · rw [if_pos hk] at hkv
      rcases List.mem_cons.mp hkv with h | h
      · exact Or.inl h
      · refine Or.inr ⟨List.mem_cons_of_mem _ h, ?_⟩
        intro hkk
        exact hk'nmem (hk ▸ hkk ▸ List.mem_map_of_mem Prod.fst h)
    · rw [if_neg hk] at hkv
      rcases List.mem_cons.mp hkv with h | h
      · exact Or.inr ⟨h ▸ List.mem_cons_self _ _, by rw [h]; exact hk⟩
      · rcases ih hnd2 kv h with h2 | h2
        · exact Or.inl h2
        · exact Or.inr ⟨List.mem_cons_of_mem _ h2.1, h2.2⟩

theorem keysOf_setS_not_mem (m : SMap) (k v : String) (h : k ∉ keysOf m) :
    keysOf (setS m k v) = keysOf m ++ [k] := by
  induction m with
  | nil => rfl
  | cons e t ih =>
    obtain ⟨k', v'⟩ := e
    have hk : k' ≠ k := by
      intro hkk
      exact h (hkk ▸ List.mem_cons_self _ _)
    have hnt : k ∉ keysOf t := by
      intro hmem
      exact h (List.mem_cons_of_mem _ hmem)
    unfold setS
    rw [if_neg hk]
    show k' :: keysOf (setS t k v) = (k' :: keysOf t) ++ [k]
    rw [ih hnt, List.cons_append]

theorem keysOf_setS_nodup (m : SMap) (k v : String) (hnd : (keysOf m).Nodup) :
    (keysOf (setS m k v)).Nodup := by
  by_cases h : k ∈ keysOf m
  · rw [keysOf_setS_mem m k v h]
    exact hnd
  · rw [keysOf_setS_not_mem m k v h]
    simp only [List.nodup_append, List.nodup_cons, List.not_mem_nil, not_false_iff,
      List.nodup_nil, and_true, true_and]
    constructor
    · exact hnd
    · intro a ha
      simp only [List.mem_singleton]
      intro hak
      exact h (hak ▸ ha)

theorem lookupS_of_mem_nodup {m : SMap} {k v : String} (hnd : (keysOf m).Nodup)
    (h : (k, v) ∈ m) : lookupS m k = some v := by
  induction m with
  | nil => simp at h
  | cons e t ih =>
    obtain ⟨k', v'⟩ := e
    rw [lookupS_cons]
    rcases List.mem_cons.mp h with h1 | h1
    · cases h1
      rw [if_pos rfl]
    · have hk'nmem : k' ∉ keysOf t := by
        simp only [keysOf, List.map_cons, List.nodup_cons] at hnd
        exact hnd.1
      have hne : k' ≠ k := by
        intro hkk
        exact hk'nmem (hkk ▸ List.mem_map_of_mem Prod.fst h1)
      rw [if_neg hne]
      refine ih ?_ h1
      simp only [keysOf, List.map_cons, List.nodup_cons] at hnd
      exact hnd.2

theorem setS_self {m : SMap} {k v : String} (h : lookupS m k = some v) :
    setS m k v = m := by
  induction m with
  | nil => simp [lookupS] at h
  | cons e t ih =>
    obtain ⟨k', v'⟩ := e
    rw [lookupS_cons] at h
    unfold setS
    by_cases hk : k' = k
    · rw [if_pos hk]
      rw [if_pos hk] at h
      cases h
      rw [hk]
    · rw [if_neg hk]
      rw [if_neg hk] at h
      rw [ih h]

theorem filter_self_idem {α : Type} (p : α → Bool) (l : List α) :
    (l.filter p).filter p = l.filter p := by
  induction l with
  | nil => rfl
  | cons a t ih =>
    rw [List.filter_cons]
    by_cases h : p a = true
    · rw [if_pos h, List.filter_cons, if_pos h, ih]
    · rw [if_neg h, ih]

theorem subPass_values_trimFix (rt : Runtime) :
    ∀ (entries : List (String × String)) (cur : SMap),
      (keysOf cur).Nodup →
      (∀ kv ∈ cur, kv.1 ∈ entries.map Prod.fst ∨ trimL kv.2.data = kv.2.data) →
      ∀ kv ∈ subPass rt cur entries, trimL kv.2.data = kv.2.data := by
  intro entries
  induction entries with
  | nil =>
    intro cur _ hpre kv hkv
    rcases hpre kv hkv with h | h
    · simp at h
    · exact h
  | cons e rest ih =>
    intro cur hnd hpre kv hkv
    obtain ⟨k, v⟩ := e
    unfold subPass at hkv
    refine ih (setS cur k (substituteValue (resolveIn rt cur) v)) ?_ ?_ kv hkv
    · exact keysOf_setS_nodup cur k _ hnd
    · intro kv2 hkv2
      rcases mem_setS cur k _ hnd kv2 hkv2 with h | h
      · right
        rw [h]
        exact substituteValue_trimFix _ v
      · rcases hpre kv2 h.1 with h2 | h2
        · rw [List.map_cons] at h2
          rcases List.mem_cons.mp h2 with h3 | h3
          · exact absurd h3 h.2
          · exact Or.inl h3
        · exact Or.inr h2

theorem subPass_fixed (rt : Runtime) (S : SMap)
    (hnd : (keysOf S).Nodup)
    (hfix : ∀ kv ∈ S, trimL kv.2.data = kv.2.data)
    (hres : ∀ kv ∈ S, ∀ n ∈ refNames kv.2, resolveIn rt S n = none) :
    ∀ entries, (∀ kv ∈ entries, kv ∈ S) → subPass rt S entries = S := by
  intro entries
  induction entries with
  | nil => intro _; rfl
  | cons e rest ih =>
    intro hsub
    obtain ⟨k, v⟩ := e
    have hmem : (k, v) ∈ S := hsub _ (List.mem_cons_self _ _)
    unfold subPass
    have hval : substituteValue (resolveIn rt S) v = v := by
      unfold substituteValue
      rw [applyRefsL_of_unresolved _ _
        (fun n hn => hres (k, v) hmem (String.mk n) (List.mem_map_of_mem _ hn))]
      rw [hfix (k, v) hmem]
    rw [hval, setS_self (lookupS_of_mem_nodup hnd hmem)]
    exact ih (fun kv hkv => hsub kv (List.mem_cons_of_mem _ hkv))

/-- C4.  Substitution idempotence: once no remaining `var(...)` reference
of the engine's output resolves through either tier of the value
namespace, running the Substitution Engine a second time changes no key
and no value. -/
theorem substitute_idempotent (rt : Runtime) (S0 : SMap)
    (hnd : (keysOf S0).Nodup)
    (hres : ∀ kv ∈ substitute rt S0, ∀ n ∈ refNames kv.2,
      resolveIn rt (substitute rt S0) n = none) :
    substitute rt (substitute rt S0) = substitute rt S0 := by
  have hkeys0 : keysOf (subPass rt S0 S0) = keysOf S0 :=
    keysOf_subPass rt S0 S0 (fun kv hkv => List.mem_map_of_mem Prod.fst hkv)
  have hknd : (keysOf (substitute rt S0)).Nodup := by
    have hsub : List.Sublist (keysOf (substitute rt S0)) (keysOf (subPass rt S0 S0)) :=
      List.Sublist.map Prod.fst (List.filter_sublist (subPass rt S0 S0))
    exact hsub.nodup (hkeys0 ▸ hnd)
  have hfix : ∀ kv ∈ substitute rt S0, trimL kv.2.data = kv.2.data := by
    intro kv hkv
    have hkv2 : kv ∈ subPass rt S0 S0 := List.mem_of_mem_filter hkv
    exact subPass_values_trimFix rt S0 S0 hnd
      (fun kv2 hkv2 => Or.inl (List.mem_map_of_mem Prod.fst hkv2)) kv hkv2
  show (subPass rt (substitute rt S0) (substitute rt S0)).filter
    (fun kv => !isInternalProp rt kv.1) = substitute rt S0
  rw [subPass_fixed rt (substitute rt S0) hknd hfix hres (substitute rt S0)
    (fun kv hkv => hkv)]
  show ((subPass rt S0 S0).filter (fun kv => !isInternalProp rt kv.1)).filter
    (fun kv => !isInternalProp rt kv.1) = substitute rt S0
  exact filter_self_idem _ _

/-- Witness for C4: a value with one unresolvable reference reaches a
fixed point after one pass. -/
theorem substitute_idempotent_witness :
    (keysOf [("color", "var(--missing)")]).Nodup ∧
    substitute rtEmpty (substitute rtEmpty [("color", "var(--missing)")]) =
      substitute rtEmpty [("color", "var(--missing)")] :=
  ⟨by decide,
   substitute_idempotent rtEmpty [("color", "var(--missing)")] (by decide) (by decide)⟩


theorem dropWhile_eq_drop {α : Type} (p : α → Bool) (l : List α) :
    l.dropWhile p = l.drop (l.takeWhile p).length := by
  induction l with
  | nil => rfl
  | cons a t ih =>
    by_cases h : p a = true
    · rw [List.dropWhile_cons_of_pos h, List.takeWhile_cons_of_pos h]
      simp only [List.length_cons, List.drop_succ_cons]
      exact ih
    · rw [List.dropWhile_cons_of_neg h, List.takeWhile_cons_of_neg h]
      rfl

theorem isPre_iff (p : List Char) : ∀ l, isPre p l = true ↔ ∃ s, l = p ++ s := by
  induction p with
  | nil =>
    intro l
    constructor
    · intro _
      exact ⟨l, rfl⟩
    · intro _
      rfl
  | cons a as ih =>
    intro l
    cases l with
    | nil =>
      constructor
      · intro h
        exact absurd h (by simp [isPre])
      · rintro ⟨s, hs⟩
        simp at hs
    | cons b bs =>
      simp only [isPre, Bool.and_eq_true, decide_eq_true_eq, ih bs, List.cons_append,
        List.cons.injEq]
      constructor
      · rintro ⟨hab, s, hs⟩
        exact ⟨s, hab.symm, hs⟩
      · rintro ⟨s, hba, hs⟩
        exact ⟨hba.symm, s, hs⟩

theorem isPre_append (p s : List Char) : isPre p (p ++ s) = true :=
  (isPre_iff p (p ++ s)).mpr ⟨s, rfl⟩

theorem takeWhile_append_false (p : Char → Bool) (run : List Char) (c : Char)
    (s : List Char) (hall : ∀ x ∈ run, p x = true) (hc : p c = false) :
    (run ++ c :: s).takeWhile p = run := by
  induction run with
  | nil =>
    rw [List.nil_append]
    exact List.takeWhile_cons_of_neg (by simp [hc])
  | cons a rest ih =>
    rw [List.cons_append,
      List.takeWhile_cons_of_pos (hall a (List.mem_cons_self _ _))]
    rw [ih (fun x hx => hall x (List.mem_cons_of_mem _ hx))]

theorem matchVarAt_shape {l n b r} (h : matchVarAt l = some (n, b, r)) :
    ∃ run, n = '-' :: '-' :: run ∧ run ≠ [] ∧ (∀ c ∈ run, isNameChar c = true) ∧
      l = 'v' :: 'a' :: 'r' :: '(' :: '-' :: '-' ::
        (run ++ (if b then ',' :: ')' :: r else ')' :: r)) := by
  unfold matchVarAt at h
  split at h
  case h_2 => exact absurd h (by simp)
  rename_i c1 c2 c3 c4 c5 c6 t
  split at h
  case isFalse => exact absurd h (by simp)
  rename_i hcs
  simp only [Bool.and_eq_true, decide_eq_true_eq] at hcs
  obtain ⟨⟨⟨⟨⟨h1, h2⟩, h3⟩, h4⟩, h5⟩, h6⟩ := hcs
  subst h1; subst h2; subst h3; subst h4; subst h5; subst h6
  split at h
  case isTrue => exact absurd h (by simp)
  rename_i hemp
  have hsplit : t = t.takeWhile isNameChar ++ t.drop (t.takeWhile isNameChar).length := by
    have := List.takeWhile_append_dropWhile isNameChar t
    rw [dropWhile_eq_drop] at this
    exact this.symm
  split at h
  · rename_i heq
    simp only [Option.some.injEq, Prod.mk.injEq] at h
    obtain ⟨hn, hb, hr⟩ := h
    subst hr
    subst hb
    refine ⟨t.takeWhile isNameChar, hn.symm, by simpa using hemp,
      fun c hc => List.mem_takeWhile_imp hc, ?_⟩
    rw [if_pos rfl, ← heq, ← hsplit]
  · rename_i heq
    simp only [Option.some.injEq, Prod.mk.injEq] at h
    obtain ⟨hn, hb, hr⟩ := h
    subst hr
    subst hb
    refine ⟨t.takeWhile isNameChar, hn.symm, by simpa using hemp,
      fun c hc => List.mem_takeWhile_imp hc, ?_⟩
    rw [if_neg (by simp), ← heq, ← hsplit]
  · exact absurd h (by simp)

theorem matchVarAt_matchNameAt {l n b r} (h : matchVarAt l = some (n, b, r)) :
    matchNameAt n l = some r := by
  obtain ⟨run, hn, _, _, hl⟩ := matchVarAt_shape h
  have hpre : l = ('v' :: 'a' :: 'r' :: '(' :: n) ++
      (if b then ',' :: ')' :: r else ')' :: r) := by
    rw [hl, hn]
    simp
  unfold matchNameAt
  rw [hpre, isPre_append, if_pos rfl]
  have hlen : ('v' :: 'a' :: 'r' :: '(' :: n).length = 4 + n.length := by
    simp only [List.length_cons]
    omega
  rw [← hlen, List.drop_left]
  cases b with
  | true => rfl
  | false => rfl

theorem afterName_some {s r : List Char} (h : afterName s = some r) :
    s = ',' :: ')' :: r ∨ s = ')' :: r := by
  unfold afterName at h
  split at h
  · cases h
    exact Or.inl rfl
  · cases h
    exact Or.inr rfl
  · exact absurd h (by simp)

theorem matchNameAt_matchVarAt (run : List Char) (hne : run ≠ [])
    (hchars : ∀ c ∈ run, isNameChar c = true) (l r : List Char)
    (h : matchNameAt ('-' :: '-' :: run) l = some r) :
    ∃ b, matchVarAt l = some ('-' :: '-' :: run, b, r) := by
  unfold matchNameAt at h
  split at h
  case isFalse => exact absurd h (by simp)
  rename_i hpre
  obtain ⟨s, hs⟩ := (isPre_iff _ l).mp hpre
  have hlen : ('v' :: 'a' :: 'r' :: '(' :: '-' :: '-' :: run).length
      = 4 + ('-' :: '-' :: run).length := by
    simp only [List.length_cons]
    omega
  rw [hs, ← hlen, List.drop_left] at h
  rcases afterName_some h with hcase | hcase
  · refine ⟨true, ?_⟩
    rw [hs, hcase]
    show matchVarAt ('v' :: 'a' :: 'r' :: '(' :: '-' :: '-' ::
      (run ++ ',' :: ')' :: r)) = _
    unfold matchVarAt
    simp only []
    rw [if_pos (by decide)]
    rw [takeWhile_append_false isNameChar run ',' (')' :: r) hchars (by decide)]
    rw [if_neg (by simpa using hne)]
    rw [List.drop_left]
    rfl
  · refine ⟨false, ?_⟩
    rw [hs, hcase]
    show matchVarAt ('v' :: 'a' :: 'r' :: '(' :: '-' :: '-' ::
      (run ++ ')' :: r)) = _
    unfold matchVarAt
    simp only []
    rw [if_pos (by decide)]
    rw [takeWhile_append_false isNameChar run ')' r hchars (by decide)]
    rw [if_neg (by simpa using hne)]
    rw [List.drop_left]
    rfl

theorem matchNameAt_none_of_matchVarAt_none (run : List Char) (hne : run ≠ [])
    (hchars : ∀ c ∈ run, isNameChar c = true) (l : List Char)
    (h : matchVarAt l = none) : matchNameAt ('-' :: '-' :: run) l = none := by
  cases hmn : matchNameAt ('-' :: '-' :: run) l with
  | none => rfl
  | some r =>
    obtain ⟨b, hb⟩ := matchNameAt_matchVarAt run hne hchars l r hmn
    rw [h] at hb
    exact absurd hb (by simp)

theorem replaceFirst_head {n : List Char} {c : Char} {t r : List Char}
    (repl : List Char) (h : matchNameAt n (c :: t) = some r) :
    replaceFirstVarL n repl (c :: t) =
      (if repl.isEmpty then r.drop (r.takeWhile isWS).length
       else repl ++ r.takeWhile isWS ++ r.drop (r.takeWhile isWS).length) := by
  show (match matchNameAt n (c :: t) with
    | some r =>
      let ws := r.takeWhile isWS
      if repl.isEmpty then r.drop ws.length else repl ++ ws ++ r.drop ws.length
    | none => c :: replaceFirstVarL n repl t) = _
  rw [h]

theorem replaceFirst_cons {n : List Char} {c : Char} {t : List Char}
    (repl : List Char) (h : matchNameAt n (c :: t) = none) :
    replaceFirstVarL n repl (c :: t) = c :: replaceFirstVarL n repl t := by
  show (match matchNameAt n (c :: t) with
    | some r =>
      let ws := r.takeWhile isWS
      if repl.isEmpty then r.drop ws.length else repl ++ ws ++ r.drop ws.length
    | none => c :: replaceFirstVarL n repl t) = _
  rw [h]


theorem findVarRefsL_some {l n b r} (h : matchVarAt l = some (n, b, r)) :
    findVarRefsL l = n :: findVarRefsL r := by
  rw [findVarRefsL_eq, h]

theorem findVarRefsL_none_cons {c t} (h : matchVarAt (c :: t) = none) :
    findVarRefsL (c :: t) = findVarRefsL t := by
  rw [findVarRefsL_eq, h]

theorem ltrL_some (resolve : String → Option String) {l n b r}
    (h : matchVarAt l = some (n, b, r)) :
    ltrL resolve l =
      match resolve (String.mk n) with
      | some s =>
        if s.data.isEmpty then ltrL resolve (r.dropWhile isWS)
        else s.data ++ ltrL resolve r
      | none => varText n b ++ ltrL resolve r := by
  rw [ltrL_eq, h]

theorem ltrL_none_cons (resolve : String → Option String) {c t}
    (h : matchVarAt (c :: t) = none) :
    ltrL resolve (c :: t) = c :: ltrL resolve t := by
  rw [ltrL_eq, h]

theorem matchVarAt_decomp {l n b r} (h : matchVarAt l = some (n, b, r)) :
    l = varText n b ++ r := by
  obtain ⟨run, hn, _, _, hl⟩ := matchVarAt_shape h
  subst hn
  rw [hl]
  unfold varText
  cases b with
  | true => simp
  | false => simp

theorem findVarRefsL_shape (l : List Char) :
    ∀ n ∈ findVarRefsL l,
      ∃ run, n = '-' :: '-' :: run ∧ run ≠ [] ∧ ∀ c ∈ run, isNameChar c = true := by
  have H : ∀ (k : Nat) (l : List Char), l.length ≤ k → ∀ n ∈ findVarRefsL l,
      ∃ run, n = '-' :: '-' :: run ∧ run ≠ [] ∧ ∀ c ∈ run, isNameChar c = true := by
    intro k
    induction k with
    | zero =>
      intro l hl n hn
      have hnil : l = [] := by
        cases l with
        | nil => rfl
        | cons a t => simp at hl
      subst hnil
      simp [findVarRefsL, findVarRefsGo] at hn
    | succ k ih =>
      intro l hl n hn
      cases hm : matchVarAt l with
      | some x =>
        obtain ⟨n0, b, r⟩ := x
        rw [findVarRefsL_some hm] at hn
        rcases List.mem_cons.mp hn with h2 | h2
        · subst h2
          obtain ⟨run, hn0, hne, hchars, _⟩ := matchVarAt_shape hm
          exact ⟨run, hn0, hne, hchars⟩
        · have hrlt := matchVarAt_rest_lt hm
          exact ih r (by omega) n h2
      | none =>
        cases l with
        | nil => simp [findVarRefsL, findVarRefsGo] at hn
        | cons c t =>
          rw [findVarRefsL_none_cons hm] at hn
          have hlen : t.length ≤ k := by
            simp only [List.length_cons] at hl
            omega
          exact ih t hlen n hn
  exact H l.length l (le_refl _)

theorem findVarRefsL_nil_tail {c : Char} {t : List Char}
    (h : findVarRefsL (c :: t) = []) : findVarRefsL t = [] := by
  cases hm : matchVarAt (c :: t) with
  | some x =>
    obtain ⟨n, b, r⟩ := x
    rw [findVarRefsL_some hm] at h
    exact absurd h (by simp)
  | none =>
    rw [findVarRefsL_none_cons hm] at h
    exact h

theorem findVarRefsL_nil_drop (k : Nat) :
    ∀ (l : List Char), findVarRefsL l = [] → findVarRefsL (l.drop k) = [] := by
  induction k with
  | zero =>
    intro l h
    rw [List.drop_zero]
    exact h
  | succ k ih =>
    intro l h
    cases l with
    | nil => rfl
    | cons c t =>
      rw [List.drop_succ_cons]
      exact ih t (findVarRefsL_nil_tail h)

theorem findVarRefsL_nil_dropWhile (p : Char → Bool) (l : List Char)
    (h : findVarRefsL l = []) : findVarRefsL (l.dropWhile p) = [] := by
  rw [dropWhile_eq_drop]
  exact findVarRefsL_nil_drop _ l h

theorem ltrL_unresolved (resolve : String → Option String) :
    ∀ (k : Nat) (l : List Char), l.length ≤ k →
      (∀ n ∈ findVarRefsL l, resolve (String.mk n) = none) → ltrL resolve l = l := by
  intro k
  induction k with
  | zero =>
    intro l hl _
    cases l with
    | nil => rfl
    | cons a t => simp at hl
  | succ k ih =>
    intro l hl hres
    cases hm : matchVarAt l with
    | some x =>
      obtain ⟨n, b, r⟩ := x
      have hrefs := findVarRefsL_some hm
      have hn : resolve (String.mk n) = none :=
        hres n (by rw [hrefs]; exact List.mem_cons_self _ _)
      rw [ltrL_some resolve hm, hn]
      have hrlt := matchVarAt_rest_lt hm
      rw [ih r (by omega)
        (fun n2 hn2 => hres n2 (by rw [hrefs]; exact List.mem_cons_of_mem _ hn2))]
      exact (matchVarAt_decomp hm).symm
    | none =>
      cases l with
      | nil => rfl
      | cons c t =>
        rw [ltrL_none_cons resolve hm]
        have hrefs := findVarRefsL_none_cons hm
        have hlen : t.length ≤ k := by
          simp only [List.length_cons] at hl
          omega
        rw [ih t hlen (fun n2 hn2 => hres n2 (by rw [hrefs]; exact hn2))]

theorem applyRefs_ltr (resolve : String → Option String) :
    ∀ (k : Nat) (l : List Char), l.length ≤ k → (findVarRefsL l).length ≤ 1 →
      (findVarRefsL l).foldl
        (fun acc n =>
          match resolve (String.mk n) with
          | some r => replaceFirstVarL n r.data acc
          | none => acc) l
      = ltrL resolve l := by
  intro k
  induction k with
  | zero =>
    intro l hl _
    cases l with
    | nil => rfl
    | cons a t => simp at hl
  | succ k ih =>
    intro l hl h1
    cases hm : matchVarAt l with
    | none =>
      cases l with
      | nil => rfl
      | cons c t =>
        have hrefs : findVarRefsL (c :: t) = findVarRefsL t := findVarRefsL_none_cons hm
        have hlt : ltrL resolve (c :: t) = c :: ltrL resolve t := ltrL_none_cons resolve hm
        rw [hrefs, hlt]
        rw [hrefs] at h1
        have hlen : t.length ≤ k := by
          simp only [List.length_cons] at hl
          omega
        cases hr : findVarRefsL t with
        | nil =>
          show c :: t = c :: ltrL resolve t
          rw [ltrL_unresolved resolve t.length t (le_refl _)
            (by rw [hr]; intro n2 hn2; simp at hn2)]
        | cons n0 rest =>
          rw [hr] at h1
          simp only [List.length_cons] at h1
          have hrest : rest = [] := List.length_eq_zero.mp (by omega)
          subst hrest
          rw [List.foldl_cons, List.foldl_nil]
          obtain ⟨run, hn0, hne, hchars⟩ :=
            findVarRefsL_shape t n0 (by rw [hr]; exact List.mem_cons_self _ _)
          cases hres : resolve (String.mk n0) with
          | none =>
            show c :: t = c :: ltrL resolve t
            rw [ltrL_unresolved resolve t.length t (le_refl _)
              (by intro n2 hn2; rw [hr] at hn2
                  rcases List.mem_cons.mp hn2 with h2 | h2
                  · subst h2; exact hres
                  · simp at h2)]
          | some s =>
            simp only []
            have hmn : matchNameAt n0 (c :: t) = none := by
              subst hn0
              exact matchNameAt_none_of_matchVarAt_none run hne hchars (c :: t) hm
            rw [replaceFirst_cons s.data hmn]
            have hihr := ih t hlen (by rw [hr]; simp)
            rw [hr, List.foldl_cons, List.foldl_nil, hres] at hihr
            simp only [] at hihr
            rw [hihr]
    | some x =>
      obtain ⟨n0, b, r⟩ := x
      have hrefs := findVarRefsL_some hm
      rw [hrefs] at h1
      simp only [List.length_cons] at h1
      have hr0 : findVarRefsL r = [] := List.length_eq_zero.mp (by omega)
      rw [hrefs, List.foldl_cons, hr0, List.foldl_nil]
      cases hres : resolve (String.mk n0) with
      | none =>
        simp only []
        rw [ltrL_some resolve hm, hres]
        simp only []
        rw [ltrL_unresolved resolve r.length r (le_refl _)
          (by rw [hr0]; intro n2 hn2; simp at hn2)]
        exact matchVarAt_decomp hm
      | some s =>
        simp only []
        rw [ltrL_some resolve hm, hres]
        simp only []
        have hmn : matchNameAt n0 l = some r := matchVarAt_matchNameAt hm
        obtain ⟨run2, hn2, _, _, hl2⟩ := matchVarAt_shape hm
        rw [hl2] at hmn ⊢
        rw [replaceFirst_head s.data hmn]
        by_cases hemp : s.data.isEmpty = true
        · rw [if_pos hemp, if_pos hemp]
          rw [ltrL_unresolved resolve (r.dropWhile isWS).length (r.dropWhile isWS)
            (le_refl _)
            (by rw [findVarRefsL_nil_dropWhile isWS r hr0]; intro n2 hn2; simp at hn2)]
          exact (dropWhile_eq_drop isWS r).symm
        · rw [if_neg hemp, if_neg hemp]
          rw [ltrL_unresolved resolve r.length r (le_refl _)
            (by rw [hr0]; intro n2 hn2; simp at hn2)]
          rw [List.append_assoc, ← dropWhile_eq_drop isWS r,
            List.takeWhile_append_dropWhile isWS r]

/-- C2, counterexample.  The claim's "one left-to-right pass that never
re-scans a replaced region" is false of the source: in the style map
`exStyle`, the value of `p` is `var(--a)var(--b)` with `--a` resolving
(through tier 1) to `var(--b,)` and `--b` to `X`; the engine's second
replacement targets the FIRST occurrence of `var(--b...)` in the current
value — inside the region introduced by the first replacement — yielding
`Xvar(--b)`, while the spec's no-re-scan pass yields `var(--b,)X`. -/
theorem substitute_rescans_counterexample :
    substituteValue (resolveIn rtEmpty exStyle) "var(--a)var(--b)" = "Xvar(--b)" ∧
    substituteValueSpec (resolveIn rtEmpty exStyle) "var(--a)var(--b)" = "var(--b,)X" ∧
    substituteValue (resolveIn rtEmpty exStyle) "var(--a)var(--b)" ≠
      substituteValueSpec (resolveIn rtEmpty exStyle) "var(--a)var(--b)" ∧
    lookupS (substitute rtEmpty exStyle) "p" = some "Xvar(--b)" :=
  ⟨by decide, by decide, by decide, by decide⟩

/-- C2, amended.  For a value containing at most one `var(...)`
reference, whose name consists of characters with no regular-expression
meaning and whose resolved text (if any) contains no dollar sign, the
Substitution Engine pass behaves exactly as the claim states: a reference
resolving to a non-empty string is replaced by it with the trailing comma
absorbed, a reference resolving to the empty string is removed together
with its trailing whitespace, an unresolved reference is left verbatim,
and the result is stored trimmed — i.e. the source pass coincides with
the spec's left-to-right no-re-scan pass.  (With several references, each
replacement instead targets the first occurrence of the reference in the
current value, which the counterexample shows can fall inside an earlier
replacement's region; and because the source compiles the raw name into
the replacement pattern and passes the resolved text to `replace`,
metacharacters in a name and dollar sequences in a resolved value escape
the literal reading modelled here.) -/
theorem substituteValue_single_ref_spec (resolve : String → Option String) (v : String)
    (h : (findVarRefsL v.data).length ≤ 1)
    (hsafe : ∀ n ∈ findVarRefsL v.data, ∀ c ∈ n, isRegexSafeChar c = true)
    (hdollar : ∀ n ∈ findVarRefsL v.data,
      ∀ c ∈ ((resolve (String.mk n)).getD "").data, c ≠ '$') :
    substituteValue resolve v = substituteValueSpec resolve v := by
  unfold substituteValue substituteValueSpec applyRefsL
  rw [applyRefs_ltr resolve v.data.length v.data (le_refl _) h]

/-- Witness for the amended C2 at a single-reference value with a
regex-safe name and a dollar-free replacement. -/
theorem substituteValue_single_ref_spec_witness :
    ((findVarRefsL "var(--spacing) auto".data).length ≤ 1) ∧
    (∀ n ∈ findVarRefsL "var(--spacing) auto".data,
      ∀ c ∈ n, isRegexSafeChar c = true) ∧
    (∀ n ∈ findVarRefsL "var(--spacing) auto".data,
      ∀ c ∈ (((fun n => if n = "--spacing" then some "1rem" else none)
          (String.mk n)).getD "").data, c ≠ '$') ∧
    substituteValue (fun n => if n = "--spacing" then some "1rem" else none)
        "var(--spacing) auto"
      = substituteValueSpec (fun n => if n = "--spacing" then some "1rem" else none)
        "var(--spacing) auto" :=
  ⟨by decide, by decide, by decide,
   substituteValue_single_ref_spec
     (fun n => if n = "--spacing" then some "1rem" else none)
     "var(--spacing) auto" (by decide) (by decide) (by decide)⟩


theorem getValue_isOk (rt : Runtime) (n : String) (h : startsDashDash n = true) :
    ∃ v, getValue rt n = .ok v := by
  unfold getValue
  rw [if_neg (by rw [h]; decide)]
  cases rt.theme with
  | some decl =>
    simp only []
    by_cases hv : getPropertyValue decl n ≠ ""
    · rw [if_pos hv]
      exact ⟨_, rfl⟩
    · rw [if_neg hv]
      cases findPropertyRule rt n with
      | some p =>
        simp only []
        by_cases hc : (!p.inherits && p.name = n) = true
        · rw [if_pos hc]
          exact ⟨_, rfl⟩
        · rw [if_neg hc]
          exact ⟨_, rfl⟩
      | none => exact ⟨_, rfl⟩
  | none =>
    simp only []
    cases findPropertyRule rt n with
    | some p =>
      simp only []
      by_cases hc : (!p.inherits && p.name = n) = true
      · rw [if_pos hc]
        exact ⟨_, rfl⟩
      · rw [if_neg hc]
        exact ⟨_, rfl⟩
    | none => exact ⟨_, rfl⟩

theorem declsList_some (us : List UtilRule)
    (h : ∀ u ∈ us, (declProcList u.rule).isSome = true) :
    ∃ ds, declsList us = some ds := by
  induction us with
  | nil => exact ⟨[], rfl⟩
  | cons u rest ih =>
    obtain ⟨a, ha⟩ := Option.isSome_iff_exists.mp (h u (List.mem_cons_self _ _))
    obtain ⟨ds, hds⟩ := ih (fun u2 hu2 => h u2 (List.mem_cons_of_mem _ hu2))
    refine ⟨a :: ds, ?_⟩
    show (declProcList u.rule).bind
      (fun a => (declsList rest).map (fun bs => a :: bs)) = some (a :: ds)
    rw [ha, hds]
    rfl

theorem memS_append_ne (a : List String) (x s : String) (h : x ≠ s) :
    memS (a ++ [x]) s = memS a s := by
  induction a with
  | nil =>
    show (x = s || false) = false
    simp [h]
  | cons y t ih =>
    show (y = s || memS (t ++ [x]) s) = (y = s || memS t s)
    rw [ih]

theorem collapseFold_congr (act1 act2 : List String) (us : List UtilRule)
    (h : ∀ u ∈ us, memS act1 (cleanSelector u.selectorText)
      = memS act2 (cleanSelector u.selectorText)) :
    ∀ acc : Option SMap, us.foldl
        (fun acc u =>
          acc.bind (fun t =>
            if memS act1 (cleanSelector u.selectorText) then collapseRule u.rule t
            else some t)) acc
      = us.foldl
        (fun acc u =>
          acc.bind (fun t =>
            if memS act2 (cleanSelector u.selectorText) then collapseRule u.rule t
            else some t)) acc := by
  induction us with
  | nil => intro acc; rfl
  | cons u rest ih =>
    intro acc
    rw [List.foldl_cons, List.foldl_cons, h u (List.mem_cons_self _ _)]
    exact ih (fun u2 hu2 => h u2 (List.mem_cons_of_mem _ hu2)) _

theorem normalizeNames_append (a b : List String) :
    normalizeNames (a ++ b) = normalizeNames a ++ normalizeNames b := by
  unfold normalizeNames
  rw [List.map_append, List.filter_append]

/-- Totality of the EMBEDDED facade: with a well-formed stylesheet (every
declaration statement has a colon, as the browser serializer guarantees),
the embedded `toObject` and `toCSS` always return a result; every
variable name the substitution pass can query starts with `--`, so
`getValue`'s InvalidArgument branch is unreachable from these calls
(unresolved references simply stay in the output, per the substitution
theorems); and a class name that is empty after trimming, fails the
variant test, or matches no utility selector is silently excluded:
appending it to the input changes nothing.  NOTE: the embedding models
the per-name replacement as a literal search, so it is total; the source
additionally compiles each scanned name into a `new RegExp` and can
throw a SyntaxError there when a resolvable name contains regex syntax —
a divergence of the code from its never-raise contract, exhibited
separately at a concrete stylesheet. -/
theorem toObject_never_raises (rt : Runtime) (cns state : List String) (strict : Bool)
    (hwf : wfRuntime rt) :
    (∃ m, toObject rt cns state strict = some m) ∧
    (∃ s, toCSS rt cns state strict = some s) ∧
    (∀ v n, n ∈ refNames v →
      startsDashDash n = true ∧ getValue rt n = .ok (getValueOpt rt n)) ∧
    (∀ c : String,
      (String.mk (trimL c.data) = "" ∨
        testVariants (String.mk (trimL c.data)) state strict = false ∨
        ∀ u ∈ rt.utilities, cleanSelector u.selectorText ≠ String.mk (trimL c.data)) →
      toObject rt (cns ++ [c]) state strict = toObject rt cns state strict) := by
  have hphase : ∀ act : List String, ∃ m, collapsePhase rt act = some m := by
    intro act
    rw [collapsePhase_eq]
    obtain ⟨ds, hds⟩ := declsList_some
      (rt.utilities.filter (fun u => memS act (cleanSelector u.selectorText)))
      (fun u hu => hwf u (List.mem_of_mem_filter hu))
    unfold matchedDecls
    rw [hds]
    exact ⟨_, rfl⟩
  obtain ⟨m0, hm0⟩ := hphase (activeOf cns state strict)
  refine ⟨⟨_, by unfold toObject; rw [hm0]; rfl⟩,
          ⟨_, by unfold toCSS toObject; rw [hm0]; rfl⟩, ?_, ?_⟩
  · intro v n hn
    obtain ⟨n0, hn0mem, hn0⟩ := List.mem_map.mp hn
    obtain ⟨run, hrun, _, _⟩ := findVarRefsL_shape v.data n0 hn0mem
    have hdd : startsDashDash n = true := by
      rw [← hn0, hrun]
      rfl
    obtain ⟨v0, hv0⟩ := getValue_isOk rt n hdd
    have hopt : getValueOpt rt n = v0 := by
      unfold getValueOpt
      rw [hv0]
    rw [hopt, hv0]
    exact ⟨hdd, rfl⟩
  · intro c hc
    have hsingle : activeOf (cns ++ [c]) state strict
        = activeOf cns state strict ++
          (normalizeNames [c]).filter (fun x => testVariants x state strict) := by
      unfold activeOf
      rw [normalizeNames_append, List.filter_append]
    rcases hc with hc | hc | hc
    · have hnil : normalizeNames [c] = [] := by
        unfold normalizeNames
        show ([String.mk (trimL c.data)]).filter (fun c => !c.isEmpty) = []
        rw [List.filter_cons, if_neg (by rw [hc]; decide)]
        rfl
      unfold toObject
      rw [hsingle, hnil, List.filter_nil, List.append_nil]
    · have hnil : (normalizeNames [c]).filter (fun x => testVariants x state strict)
          = [] := by
        unfold normalizeNames
        show (([String.mk (trimL c.data)]).filter (fun c => !c.isEmpty)).filter
          (fun x => testVariants x state strict) = []
        rw [List.filter_cons]
        by_cases he : (!(String.mk (trimL c.data)).isEmpty) = true
        · rw [if_pos he]
          show ([String.mk (trimL c.data)]).filter (fun x => testVariants x state strict)
            = []
          rw [List.filter_cons, if_neg (by rw [hc]; decide)]
          rfl
        · rw [if_neg he]
          rfl
      unfold toObject
      rw [hsingle, hnil, List.append_nil]
    · have hextra : (normalizeNames [c]).filter (fun x => testVariants x state strict) = []
          ∨ (normalizeNames [c]).filter (fun x => testVariants x state strict)
            = [String.mk (trimL c.data)] := by
        unfold normalizeNames
        show ((([c].map (fun c => String.mk (trimL c.data))).filter
          (fun c => !c.isEmpty)).filter (fun x => testVariants x state strict)) = _ ∨ _
        rw [List.map_cons, List.map_nil, List.filter_cons]
        by_cases he : (!(String.mk (trimL c.data)).isEmpty) = true
        · rw [if_pos he, List.filter_cons]
          by_cases ht : testVariants (String.mk (trimL c.data)) state strict = true
          · rw [if_pos ht]
            right
            rfl
          · rw [if_neg ht]
            left
            rfl
        · rw [if_neg he]
          left
          rfl
      unfold toObject
      rw [hsingle]
      rcases hextra with hx | hx
      · rw [hx, List.append_nil]
      · rw [hx]
        have hph : collapsePhase rt
            (activeOf cns state strict ++ [String.mk (trimL c.data)])
            = collapsePhase rt (activeOf cns state strict) := by
          unfold collapsePhase
          exact collapseFold_congr _ _ rt.utilities
            (fun u hu => memS_append_ne _ _ _ (fun heq => (hc u hu) heq.symm)) _
        rw [hph]


/-- The totality lemma at a concrete input: the example runtime is
well-formed; a class list with an unmatched name still produces a result,
and dropping the unmatched name changes nothing. -/
theorem toObject_never_raises_witness :
    wfRuntime rtEx ∧
    (∃ m, toObject rtEx ["m-4", "no-such-utility"] ["hover"] false = some m) ∧
    toObject rtEx (["m-4"] ++ ["no-such-utility"]) ["hover"] false =
      toObject rtEx ["m-4"] ["hover"] false :=
  ⟨by unfold wfRuntime; decide,
   (toObject_never_raises rtEx ["m-4", "no-such-utility"] ["hover"] false
     (by unfold wfRuntime; decide)).1,
   (toObject_never_raises rtEx ["m-4"] ["hover"] false
     (by unfold wfRuntime; decide)).2.2.2
     "no-such-utility" (Or.inr (Or.inr (by decide)))⟩

/-- C8, failing input.  The claim's never-raise contract is breached by
the dynamically built replacement pattern: `rtHazard` is a well-formed
stylesheet (it lies in the claim's domain), its only utility resolves the
class `x` to the style `--a[b: v; color: var(--a[b)`, the substitution
scan extracts the reference name `--a[b` — which contains `[`, a
character with regular-expression meaning — and that name resolves
through tier 1, so the source reaches
`new RegExp("var\\(" + name + "\,?\\)(\\s*)")` with an unterminated
character class and throws a SyntaxError out of `toObject`/`toCSS`.  The
embedding, which models the replacement as a literal search, instead
completes on the same input; evaluating it below pins down exactly where
the source diverges from the claim. -/
theorem substitute_regexp_hazard :
    wfRuntime rtHazard ∧
    refNames "var(--a[b)" = ["--a[b"] ∧
    ('[' ∈ "--a[b".data) ∧
    isRegexSafeChar '[' = false ∧
    resolveIn rtHazard [("--a[b", "v"), ("color", "var(--a[b)")] "--a[b"
      = some "v" ∧
    toObject rtHazard ["x"] [] false = some [("--a[b", "v"), ("color", "v")] :=
  ⟨by unfold wfRuntime; decide, by decide, by decide, by decide, by decide, by decide⟩

end TWRT
